import Mathlib

/-!
Verification development for `weasy/formatting_structure/build.py`.

The file embeds the box-tree building helpers of the repository in Lean:

* the `Box` data model (the `boxes` module itself is not part of the sources,
  so the box variants and their category predicates are modelled from the
  spec, §3 "DATA MODEL"),
* `process_whitespace` (the whitespace collapser),
* `dom_to_box` and `add_list_marker` (tree building and list markers),
* `inline_in_block` (the inline-in-block normalizer) and
* `block_in_inline` / `_inner_block_in_inline` (the block-in-inline splitter).

Python mutates boxes in place; the embedding passes the rewritten trees
explicitly.  Python object identity (`is` / `is not`, used only for the
`changed` fast paths) is modelled by structural equality: the `changed`
flags decide only whether the original object or a freshly rebuilt copy is
returned, and both branches are structurally equal, so outputs agree.
Machine text (`utf8_text` bytes, decoded and re-encoded as UTF-8 around the
whitespace pass) is modelled as `String` / `List Char`; the decode/encode
round trip is the identity on the modelled payload.
-/

namespace Weasy

/-- Modelled from the spec, §3: the closed set of box variants.
`TextBox` carries the computed `white-space` keyword of its originating
element (the only style lookup the embedded code performs on a text box)
together with its text payload.  `ImageMarkerBox` carries the resolved
image handle.  `BlockBox` carries an optional outside list marker, a side
attachment that is not a tree child (spec §3, §4.2). -/
inductive Box where
  | TextBox (white_space : String) (utf8_text : String)
  | ImageMarkerBox (image : Nat)
  | InlineBox (childList : List Box)
  | InlineBlockBox (childList : List Box)
  | BlockBox (childList : List Box) (outside_list_marker : Option Box)
  | AnonymousBlockBox (childList : List Box)
  | LineBox (childList : List Box)

mutual

/-- Structural equality test on boxes. -/
def beqBox : Box → Box → Bool
  | .TextBox ws t, .TextBox ws2 t2 => decide (ws = ws2) && decide (t = t2)
  | .ImageMarkerBox i, .ImageMarkerBox i2 => decide (i = i2)
  | .InlineBox cs, .InlineBox cs2 => beqBoxL cs cs2
  | .InlineBlockBox cs, .InlineBlockBox cs2 => beqBoxL cs cs2
  | .BlockBox cs m, .BlockBox cs2 m2 => beqBoxL cs cs2 && beqBoxO m m2
  | .AnonymousBlockBox cs, .AnonymousBlockBox cs2 => beqBoxL cs cs2
  | .LineBox cs, .LineBox cs2 => beqBoxL cs cs2
  | _, _ => false

/-- Structural equality test on lists of boxes. -/
def beqBoxL : List Box → List Box → Bool
  | [], [] => true
  | c :: r, c2 :: r2 => beqBox c c2 && beqBoxL r r2
  | _, _ => false

/-- Structural equality test on optional boxes. -/
def beqBoxO : Option Box → Option Box → Bool
  | none, none => true
  | some a, some b => beqBox a b
  | _, _ => false

end

mutual

theorem beqBox_iff : ∀ a b : Box, beqBox a b = true ↔ a = b
  | a, b => by
    cases a <;> cases b <;>
      simp only [beqBox, Bool.and_eq_true, decide_eq_true_eq] <;>
      simp_all [beqBoxL_iff, beqBoxO_iff]

theorem beqBoxL_iff : ∀ a b : List Box, beqBoxL a b = true ↔ a = b
  | a, b => by
    cases a <;> cases b <;>
      simp only [beqBoxL, Bool.and_eq_true] <;>
      simp_all [beqBox_iff, beqBoxL_iff]

theorem beqBoxO_iff : ∀ a b : Option Box, beqBoxO a b = true ↔ a = b
  | a, b => by
    cases a <;> cases b <;> simp_all [beqBoxO, beqBox_iff]

end

instance : DecidableEq Box := fun a b =>
  decidable_of_iff (beqBox a b = true) (beqBox_iff a b)

instance : DecidableEq (Option Box) := fun a b =>
  decidable_of_iff (beqBoxO a b = true) (beqBoxO_iff a b)

instance {ε α : Type} [DecidableEq ε] [DecidableEq α] :
    DecidableEq (Except ε α) := fun a b =>
  match a, b with
  | .error e, .error f => decidable_of_iff (e = f) (by simp)
  | .ok x, .ok y => decidable_of_iff (x = y) (by simp)
  | .error _, .ok _ => isFalse (by simp)
  | .ok _, .error _ => isFalse (by simp)

/-- Modelled from the spec/`boxes` module: the ordered children of a box.
Leaves have none (Python: `getattr(box, 'children', [])`). -/
def children : Box → List Box
  | .TextBox _ _ => []
  | .ImageMarkerBox _ => []
  | .InlineBox cs => cs
  | .InlineBlockBox cs => cs
  | .BlockBox cs _ => cs
  | .AnonymousBlockBox cs => cs
  | .LineBox cs => cs

/-- Replace the children of a box, keeping its variant and its other fields.
This models Python's `box.copy()` followed by `box.empty()` and a sequence
of `box.add_child(...)` calls. -/
def withChildren : Box → List Box → Box
  | .TextBox ws t, _ => .TextBox ws t
  | .ImageMarkerBox i, _ => .ImageMarkerBox i
  | .InlineBox _, cs => .InlineBox cs
  | .InlineBlockBox _, cs => .InlineBlockBox cs
  | .BlockBox _ m, cs => .BlockBox cs m
  | .AnonymousBlockBox _, cs => .AnonymousBlockBox cs
  | .LineBox _, cs => .LineBox cs

/-- Modelled from the spec, §3: `isinstance(box, boxes.ParentBox)`. -/
def isParentBox : Box → Bool
  | .TextBox _ _ => false
  | .ImageMarkerBox _ => false
  | _ => true

/-- Modelled from the spec, §3: block-level boxes are `BlockBox` and
`AnonymousBlockBox` (`isinstance(box, boxes.BlockLevelBox)`). -/
def isBlockLevel : Box → Bool
  | .BlockBox _ _ => true
  | .AnonymousBlockBox _ => true
  | _ => false

/-- Modelled from the spec, §3: block containers are `BlockBox`,
`AnonymousBlockBox` and `InlineBlockBox`
(`isinstance(box, boxes.BlockContainerBox)`). -/
def isBlockContainer : Box → Bool
  | .BlockBox _ _ => true
  | .AnonymousBlockBox _ => true
  | .InlineBlockBox _ => true
  | _ => false

/-- `isinstance(box, boxes.InlineBox)` — the `InlineBox` variant only. -/
def isInlineBox : Box → Bool
  | .InlineBox _ => true
  | _ => false

/-- `isinstance(box, boxes.LineBox)`. -/
def isLineBox : Box → Bool
  | .LineBox _ => true
  | _ => false

/-- Modelled from the spec, §3: inline-level boxes. -/
def isInlineLevel : Box → Bool
  | .TextBox _ _ => true
  | .ImageMarkerBox _ => true
  | .InlineBox _ => true
  | .InlineBlockBox _ => true
  | _ => false

mutual

/-- Size of a box: one plus the sizes of its children (outside list markers
are side attachments, not children, and are not counted). -/
def sizeB : Box → Nat
  | .TextBox _ _ => 1
  | .ImageMarkerBox _ => 1
  | .InlineBox cs => 1 + sizeBL cs
  | .InlineBlockBox cs => 1 + sizeBL cs
  | .BlockBox cs _ => 1 + sizeBL cs
  | .AnonymousBlockBox cs => 1 + sizeBL cs
  | .LineBox cs => 1 + sizeBL cs

/-- Total size of a list of boxes. -/
def sizeBL : List Box → Nat
  | [] => 0
  | c :: rest => sizeB c + sizeBL rest

end

/-! ### Whitespace processing (`process_whitespace`, build.py lines 148-190)

The Python code works on decoded unicode strings with `re.sub` and
`str.replace`; each regular expression used there is embedded as a direct
character-list function with the same leftmost, non-overlapping,
greedy-match semantics. -/

/-- The non-breaking space U+00A0. -/
def NBSP : Char := '\u00A0'

/-- The zero-width space U+200B, a line break opportunity marker. -/
def ZWSP : Char := '\u200B'

/-- Characters of the class `[\t\r ]`. -/
def isTRS (c : Char) : Bool := c = '\t' || c = '\r' || c = ' '

/-- One greedy match of `[\t\r ]*\n[\t\r ]*` at the head of the input:
returns the rest of the input after the match, or `none` when the pattern
does not match here. -/
def matchWsNl (l : List Char) : Option (List Char) :=
  match l.dropWhile isTRS with
  | '\n' :: rest => some (rest.dropWhile isTRS)
  | _ => none

theorem dropWhile_length_le (p : Char → Bool) (l : List Char) :
    (l.dropWhile p).length ≤ l.length :=
  (List.dropWhile_suffix p).length_le

theorem matchWsNl_length_lt {l r : List Char} (h : matchWsNl l = some r) :
    r.length < l.length := by
  unfold matchWsNl at h
  split at h
  · next rest heq =>
    simp only [Option.some.injEq] at h
    subst h
    have h1 : ('\n' :: rest).length ≤ l.length := by
      rw [← heq]; exact dropWhile_length_le _ _
    have h2 : (rest.dropWhile isTRS).length ≤ rest.length :=
      dropWhile_length_le _ _
    simp only [List.length_cons] at h1
    omega
  · exact absurd h (by simp)

/-- `re.sub('[\t\r ]*\n[\t\r ]*', '\n', text)` with explicit fuel, so that
the function reduces by iota steps: at each position try one greedy match
and replace it with a newline, otherwise emit the character.  Every step
consumes at least one character, so fuel equal to the input length (used by
`subNewlines` below) is never exhausted. -/
def subNewlinesF : Nat → List Char → List Char
  | 0, l => l
  | _ + 1, [] => []
  | f + 1, c :: cs =>
    match matchWsNl (c :: cs) with
    | some rest => '\n' :: subNewlinesF f rest
    | none => c :: subNewlinesF f cs

/-- `re.sub('[\t\r ]*\n[\t\r ]*', '\n', text)`: collapse any run of tabs,
carriage returns and spaces around a newline into a single newline. -/
def subNewlines (l : List Char) : List Char :=
  subNewlinesF l.length l

/-- `text.replace(' ', u'\xA0')`. -/
def spacesToNbsp (l : List Char) : List Char :=
  l.map fun c => if c = ' ' then NBSP else c

/-- `text.replace('\n', ' ')`. -/
def newlinesToSpace (l : List Char) : List Char :=
  l.map fun c => if c = '\n' then ' ' else c

/-- `text.replace('\t', ' ')`. -/
def tabsToSpace (l : List Char) : List Char :=
  l.map fun c => if c = '\t' then ' ' else c

/-- `re.sub(u'\xA0([^\xA0]|$)', u'\xA0\u200B\\1', text)`: insert a
zero-width space after a non-breaking space that is not followed by another
non-breaking space.  Each match consumes the following character, as
`re.sub` does. -/
def insertBreakOpportunities : List Char → List Char
  | [] => []
  | [c] => if c = NBSP then [NBSP, ZWSP] else [c]
  | c :: d :: ds =>
    if c = NBSP then
      if d = NBSP then NBSP :: insertBreakOpportunities (d :: ds)
      else NBSP :: ZWSP :: d :: insertBreakOpportunities ds
    else c :: insertBreakOpportunities (d :: ds)

/-- `re.sub(' +', ' ', text)` with explicit fuel (each step consumes at
least one character, so fuel equal to the input length never runs out). -/
def collapseSpacesF : Nat → List Char → List Char
  | 0, l => l
  | _ + 1, [] => []
  | f + 1, c :: cs =>
    if c = ' ' then ' ' :: collapseSpacesF f (cs.dropWhile fun d => d = ' ')
    else c :: collapseSpacesF f cs

/-- `re.sub(' +', ' ', text)`: collapse every run of spaces to one space. -/
def collapseSpaces (l : List Char) : List Char :=
  collapseSpacesF l.length l

/-- `text.startswith(' ')`. -/
def beginsWithSpace : List Char → Bool
  | ' ' :: _ => true
  | _ => false

/-- `text.endswith(' ')`. -/
def endsWithSpace (l : List Char) : Bool :=
  decide (l.getLast? = some ' ')

/-- The per-leaf transformation of `process_whitespace` (build.py lines
160-189): given the computed `white-space` keyword, the incoming
`following_collapsible_space` flag and the decoded text, return the new
text and the outgoing flag. -/
def process_text (handling : String) (following_collapsible_space : Bool)
    (text : List Char) : List Char × Bool :=
  let text :=
    if handling = "normal" ∨ handling = "nowrap" ∨ handling = "pre-line" then
      subNewlines text
    else text
  let text :=
    if handling = "pre" ∨ handling = "pre-wrap" then
      let text := spacesToNbsp text
      if handling = "pre-wrap" then insertBreakOpportunities text else text
    else if handling = "normal" ∨ handling = "nowrap" then
      newlinesToSpace text
    else text
  if handling = "normal" ∨ handling = "nowrap" ∨ handling = "pre-line" then
    let text := collapseSpaces (tabsToSpace text)
    let text :=
      if following_collapsible_space && beginsWithSpace text then text.drop 1
      else text
    (text, endsWithSpace text)
  else (text, false)

mutual

/-- `process_whitespace` on one box: walk the box and its descendants in
document order (Python: `box.descendants()`, which never yields the outside
list marker), thread the `following_collapsible_space` flag, and rewrite
the text of every `TextBox` that carries non-empty text. -/
def pwBox (flag : Bool) : Box → Box × Bool
  | .TextBox ws t =>
    if t = "" then (.TextBox ws t, flag)
    else
      let r := process_text ws flag t.data
      (.TextBox ws (String.mk r.1), r.2)
  | .ImageMarkerBox i => (.ImageMarkerBox i, flag)
  | .InlineBox cs => let r := pwList flag cs; (.InlineBox r.1, r.2)
  | .InlineBlockBox cs => let r := pwList flag cs; (.InlineBlockBox r.1, r.2)
  | .BlockBox cs m => let r := pwList flag cs; (.BlockBox r.1 m, r.2)
  | .AnonymousBlockBox cs => let r := pwList flag cs; (.AnonymousBlockBox r.1, r.2)
  | .LineBox cs => let r := pwList flag cs; (.LineBox r.1, r.2)

/-- `process_whitespace` over a list of sibling boxes, threading the flag
left to right. -/
def pwList (flag : Bool) : List Box → List Box × Bool
  | [] => ([], flag)
  | c :: rest =>
    let r := pwBox flag c
    let r2 := pwList r.2 rest
    (r.1 :: r2.1, r2.2)

end

/-- `process_whitespace(box)` (build.py lines 148-190).  The Python
function mutates the tree in place and returns the same object; the
embedding returns the rewritten tree.  The flag starts as `False`. -/
def process_whitespace (box : Box) : Box :=
  (pwBox false box).1

/-! ### Tree building (`dom_to_box`, build.py lines 51-109) and list
markers (`add_list_marker`, build.py lines 112-146)

The style provider, the element-handling hook and the image resolver are
external collaborators (spec §6); they are modelled as components of the
`Document`.  `get_single_keyword` (from the absent `css.values` module) is
modelled by letting the style expose plain keyword strings, and
`list_style_image` expose either no image or the image's resolved URI. -/

/-- Modelled from the spec, §6: the computed style keywords the embedded
code reads. -/
structure Style where
  display : String
  white_space : String
  list_style_image : Option String
  list_style_type : String
  list_style_position : String

/-- Modelled from the spec, §6: result of the element-handling hook
`html.handle_element`: either the `DEFAULT_HANDLING` sentinel, or a
replacement result (a box, or no box at all). -/
inductive HookResult where
  | defaultHandling
  | handled (result : Option Box)

/-- Modelled from the spec, §6: the document context with its style
provider, element-handling hook and image resolver (elements are
identified by `Nat` ids). -/
structure Document where
  style_for : Nat → Style
  handle_element : Nat → HookResult
  get_image_surface_from_uri : String → Option Nat

/-- Modelled from the spec, §6: a DOM node.  `isElement` is
`isinstance(node.tag, basestring)` — false for comments and processing
instructions.  `text` is the node's leading text and `tail` the text after
the node's end tag; both may be empty (Python `None` and `''` both count
as falsy and are modelled as `""`). -/
inductive DomNode where
  | mk (isElement : Bool) (eid : Nat) (text : String) (tail : String)
      (childNodes : List DomNode)

/-- The element id of a DOM node. -/
def DomNode.eid : DomNode → Nat
  | .mk _ i _ _ _ => i

/-- Whether the node is an element. -/
def DomNode.isElement : DomNode → Bool
  | .mk b _ _ _ _ => b

/-- The leading text of a DOM node. -/
def DomNode.text : DomNode → String
  | .mk _ _ t _ _ => t

/-- The tail text of a DOM node. -/
def DomNode.tail : DomNode → String
  | .mk _ _ _ t _ => t

/-- The child nodes of a DOM node. -/
def DomNode.childNodes : DomNode → List DomNode
  | .mk _ _ _ _ cs => cs

/-- `GLYPH_LIST_MARKERS` (build.py lines 34-38), as a partial lookup:
Python raises `KeyError` for a missing key. -/
def GLYPH_LIST_MARKERS : String → Option String := fun k =>
  if k = "disc" then some "•"
  else if k = "circle" then some "◦"
  else if k = "square" then some "▪"
  else none

/-- `add_list_marker(box)` (build.py lines 112-146).  The box's
`box.style` is the computed style of its element, passed here explicitly
as `st`; `box.document` is `doc`.  The `assert not box.children` and the
`KeyError` of a missing glyph are modelled as errors. -/
def add_list_marker (doc : Document) (st : Style) (b : Box) :
    Except String Box :=
  let surface : Option Nat :=
    match st.list_style_image with
    | some uri => doc.get_image_surface_from_uri uri
    | none => none
  let markerRes : Except String (Option Box) :=
    match surface with
    | none =>
      if st.list_style_type = "none" then .ok none
      else
        match GLYPH_LIST_MARKERS st.list_style_type with
        | none => .error ("KeyError: " ++ st.list_style_type)
        | some glyph => .ok (some (.TextBox st.white_space glyph))
    | some s => .ok (some (.ImageMarkerBox s))
  match markerRes with
  | .error e => .error e
  | .ok none => .ok b
  | .ok (some marker_box) =>
    if st.list_style_position = "inside" then
      if (children b).isEmpty then
        .ok (withChildren b
          (children b ++ [marker_box, .TextBox st.white_space "\u00A0"]))
      else .error "assert failed: not box.children"
    else if st.list_style_position = "outside" then
      match b with
      | .BlockBox cs _ => .ok (.BlockBox cs (some marker_box))
      | other => .ok other
    else .ok b

mutual

/-- `dom_to_box(document, element)` (build.py lines 51-109).  Returns
`none` for `display: none`, the hook's result when the hook handles the
element, and otherwise the box built by default construction.  An
unsupported `display` raises `NotImplementedError`, modelled as an
error. -/
def dom_to_box (doc : Document) : DomNode → Except String (Option Box)
  | .mk _ eid text _ childNodes =>
    let st := doc.style_for eid
    if st.display = "none" then .ok none
    else
      match doc.handle_element eid with
      | .handled result => .ok result
      | .defaultHandling =>
        let baseRes : Except String Box :=
          if st.display = "block" ∨ st.display = "list-item" then
            if st.display = "list-item" then
              add_list_marker doc st (.BlockBox [] none)
            else .ok (.BlockBox [] none)
          else if st.display = "inline" then .ok (.InlineBox [])
          else if st.display = "inline-block" then .ok (.InlineBlockBox [])
          else .error ("Unsupported display: " ++ st.display)
        match baseRes with
        | .error e => .error e
        | .ok base =>
          let lead := if text ≠ "" then [Box.TextBox st.white_space text] else []
          match build_children doc st.white_space childNodes with
          | .error e => .error e
          | .ok kids => .ok (some (withChildren base (children base ++ lead ++ kids)))

/-- The child loop of `dom_to_box` (build.py lines 97-107): for each child
node, the recursively built box when the child is an element that was not
pruned, then a `TextBox` for the child's tail text when non-empty.  The
tail `TextBox` is built with the parent element, so it carries the
parent's `white-space` keyword `ws`. -/
def build_children (doc : Document) (ws : String) :
    List DomNode → Except String (List Box)
  | [] => .ok []
  | child :: rest =>
    let childRes : Except String (List Box) :=
      if child.isElement then
        match dom_to_box doc child with
        | .error e => .error e
        | .ok (some b) => .ok [b]
        | .ok none => .ok []
      else .ok []
    match childRes with
    | .error e => .error e
    | .ok fromChild =>
      let tailBoxes :=
        if child.tail ≠ "" then [Box.TextBox ws child.tail] else []
      match build_children doc ws rest with
      | .error e => .error e
      | .ok restBoxes => .ok (fromChild ++ tailBoxes ++ restBoxes)

end

/-! ### Inline-in-block normalization (`inline_in_block`, build.py lines
193-267)

The Python function mutates each (block container) box in place — it
recurses into all children first, then rewrites the container's child
list — and returns the box only when it is a block container, falling off
the end (returning `None`) otherwise.  `iib_eff` is the in-place effect on
the tree; `inline_in_block` is the returned value. -/

/-- The child loop of `inline_in_block` (build.py lines 242-257), as a
fold over the original children.  State: the children already added back
to the box (`acc`) and the children of the currently open line box
(`line`).  A block-level child first flushes a non-empty open line box
wrapped in an `AnonymousBlockBox`; a `LineBox` child has its children
merged into the open line box; any other child joins the open line box. -/
def iibLoop : List Box → List Box → List Box → List Box × List Box
  | [], acc, line => (acc, line)
  | c :: rest, acc, line =>
    if isBlockLevel c then
      iibLoop rest
        ((if line.isEmpty then acc
          else acc ++ [.AnonymousBlockBox [.LineBox line]]) ++ [c]) []
    else if isLineBox c then iibLoop rest acc (line ++ children c)
    else iibLoop rest acc (line ++ [c])

/-- The trailing flush of `inline_in_block` (build.py lines 258-266): a
non-empty open line box is appended bare when the box got no other
children (purely inline-level content), and wrapped in an
`AnonymousBlockBox` otherwise. -/
def iibFinish : List Box × List Box → List Box
  | (acc, line) =>
    if line.isEmpty then acc
    else if acc.isEmpty then [.LineBox line]
    else acc ++ [.AnonymousBlockBox [.LineBox line]]

/-- The rewriting `inline_in_block` performs on a block container's
already-normalized child list. -/
def iibRestructure (cs : List Box) : List Box :=
  iibFinish (iibLoop cs [] [])

mutual

/-- The in-place effect of `inline_in_block(box)` on the tree: children
are normalized first (build.py lines 233-234), then the child list of a
block container is restructured (lines 236-266); boxes that are not block
containers keep their structure. -/
def iib_eff : Box → Box
  | .TextBox ws t => .TextBox ws t
  | .ImageMarkerBox i => .ImageMarkerBox i
  | .InlineBox cs => .InlineBox (iibMap cs)
  | .LineBox cs => .LineBox (iibMap cs)
  | .InlineBlockBox cs => .InlineBlockBox (iibRestructure (iibMap cs))
  | .BlockBox cs m => .BlockBox (iibRestructure (iibMap cs)) m
  | .AnonymousBlockBox cs => .AnonymousBlockBox (iibRestructure (iibMap cs))

/-- `inline_in_block` mapped over a child list (in-place effects). -/
def iibMap : List Box → List Box
  | [] => []
  | c :: rest => iib_eff c :: iibMap rest

end

/-- The value returned by `inline_in_block(box)`: the (mutated) box for a
block container, and `None` otherwise — the function's trailing `return`
at build.py line 237 returns no value. -/
def inline_in_block (b : Box) : Option Box :=
  if isBlockContainer b then some (iib_eff b) else none

/-! ### Block-in-inline splitting (`block_in_inline` and
`_inner_block_in_inline`, build.py lines 270-432)

The resume cursor (`skip_stack` / `resume_at`): a stack of
(index, nested cursor) pairs, one frame per level of inline nesting.

The functions are embedded with an explicit fuel argument so that they are
structurally recursive and reduce by iota steps; the fuel only bounds the
depth of the call tree and `biiFuel` below always suffices (proved by the
adequacy lemmas further down, which produce the result at exactly that
fuel).  Running out of fuel is an `.error "fuel"`, distinct from the
modelled `assert` failure.

Note the Python loop in `_inner_block_in_inline` unpacks `skip_stack` once
(line 405) and then passes the unpacked nested cursor to the recursion
into *every* `InlineBox` child it meets (line 413), not only the child at
the resumed index; the embedding reproduces this (`stale` below). -/

/-- A resume cursor: `(index, nested cursor)` per level of inline
nesting. -/
inductive SkipStack where
  | node (index : Nat) (nested : Option SkipStack)

/-- Interleave the `(new_line, block)` pairs collected by the splitter
loop the way build.py lines 346-349 append them: each new line wrapped in
a fresh `AnonymousBlockBox`, then the (recursively split) block. -/
def anonInterleave : List (Box × Box) → List Box
  | [] => []
  | p :: rest => .AnonymousBlockBox [p.1] :: p.2 :: anonInterleave rest

mutual

/-- `block_in_inline(box)` (build.py lines 270-374) at the given fuel.
Non-parent boxes pass through; a `LineBox` child (asserted to be an only
child) is repeatedly split by `_inner_block_in_inline`; any other child is
processed recursively; the box is rebuilt only when some child changed. -/
def block_in_inlineF : Nat → Box → Except String Box
  | 0, _ => .error "fuel"
  | f + 1, b =>
    if isParentBox b = false then .ok b
    else
      match biiKidsF f (children b).length (children b) with
      | .error e => .error e
      | .ok (newChildren, changed) =>
        if changed then .ok (withChildren b newChildren) else .ok b

/-- The child loop of `block_in_inline` (build.py lines 337-365) over the
remaining children, given the total number `n` of children of the box (for
the only-child assertion at lines 339-340).  Returns the new child list
and the `changed` flag. -/
def biiKidsF : Nat → Nat → List Box → Except String (List Box × Bool)
  | 0, _, _ => .error "fuel"
  | _ + 1, _, [] => .ok ([], false)
  | f + 1, n, child :: rest =>
    let headRes : Except String (List Box × Box) :=
      if isLineBox child then
        if n ≠ 1 then .error "assert failed: line box with siblings"
        else
          match splitLoopF f child none with
          | .error e => .error e
          | .ok (pairs, lastLine) =>
            .ok (anonInterleave pairs,
              if pairs.isEmpty then lastLine else .AnonymousBlockBox [lastLine])
      else
        match block_in_inlineF f child with
        | .error e => .error e
        | .ok nc => .ok ([], nc)
    match headRes with
    | .error e => .error e
    | .ok (pre, newChild) =>
      match biiKidsF f n rest with
      | .error e => .error e
      | .ok (tailChildren, changedRest) =>
        .ok (pre ++ newChild :: tailChildren,
          (!beqBox newChild child) || changedRest)

/-- The `while 1` loop of `block_in_inline` (build.py lines 342-350):
repeatedly call `_inner_block_in_inline` on the same line box with the
evolving cursor; collect the `(new_line, block_in_inline(block))` pairs,
and return them with the final `new_line`. -/
def splitLoopF : Nat → Box → Option SkipStack → Except String (List (Box × Box) × Box)
  | 0, _, _ => .error "fuel"
  | f + 1, child, st =>
    match innerF f child st with
    | .error e => .error e
    | .ok (newLine, oblk, ost) =>
      match oblk with
      | none => .ok ([], newLine)
      | some blk =>
        match block_in_inlineF f blk with
        | .error e => .error e
        | .ok bb =>
          match splitLoopF f child ost with
          | .error e => .error e
          | .ok (pairs, lastLine) => .ok ((newLine, bb) :: pairs, lastLine)

/-- `_inner_block_in_inline(box, skip_stack)` (build.py lines 384-432):
search the box's children, from the cursor position, for the first
block-level box reachable through `InlineBox` nesting.  Returns the new
box holding the processed content scanned before the find, the found
block-level box (or `none`), and the resume cursor (or `none`). -/
def innerF : Nat → Box → Option SkipStack → Except String (Box × Option Box × Option SkipStack)
  | 0, _, _ => .error "fuel"
  | f + 1, b, st =>
    let skip := match st with | none => 0 | some (.node i _) => i
    let stale := match st with | none => none | some (.node _ nst) => nst
    match innerLoopF f stale ((children b).drop skip) skip with
    | .error e => .error e
    | .ok (acc, changed, oblk, ores) =>
      match oblk with
      | some blk => .ok (withChildren b acc, some blk, ores)
      | none =>
        if changed || decide (skip ≠ 0) then .ok (withChildren b acc, none, none)
        else .ok (b, none, none)

/-- The `for index, child in box.enumerate_skip(skip)` loop of
`_inner_block_in_inline` (build.py lines 407-428), over the children from
the skip position.  `stale` is the nested cursor unpacked at line 405,
passed unchanged to every `InlineBox` recursion (line 413).  Returns the
children added to the new box, the `changed` flag, the found block-level
box and the resume cursor. -/
def innerLoopF : Nat → Option SkipStack → List Box → Nat →
    Except String (List Box × Bool × Option Box × Option SkipStack)
  | 0, _, _, _ => .error "fuel"
  | _ + 1, _, [], _ => .ok ([], false, none, none)
  | f + 1, stale, c :: rest, index =>
    if isBlockLevel c then
      .ok ([], false, some c, some (.node (index + 1) none))
    else
      let step : Except String (Box × Option Box × Option SkipStack) :=
        if isInlineBox c then innerF f c stale
        else if isParentBox c then
          match block_in_inlineF f c with
          | .error e => .error e
          | .ok nc => .ok (nc, none, none)
        else .ok (c, none, none)
      match step with
      | .error e => .error e
      | .ok (newChild, oblk, ores) =>
        match oblk with
        | some blk =>
          .ok ([newChild], !beqBox newChild c, some blk, some (.node index ores))
        | none =>
          match innerLoopF f stale rest (index + 1) with
          | .error e => .error e
          | .ok (acc, changed, oblk2, ores2) =>
            .ok (newChild :: acc, (!beqBox newChild c) || changed, oblk2, ores2)

end

/-- Sufficient fuel for `block_in_inlineF` on `b` (shown by the adequacy
lemmas below). -/
def biiFuel (b : Box) : Nat := 16 ^ sizeB b

/-- `block_in_inline(box)` (build.py lines 270-374). -/
def block_in_inline (b : Box) : Except String Box :=
  block_in_inlineF (biiFuel b) b

/-! ### Observers and predicates used by the claims -/

/-- The constructor of a box, as a tag. -/
def ctorIdx : Box → Nat
  | .TextBox _ _ => 0
  | .ImageMarkerBox _ => 1
  | .InlineBox _ => 2
  | .InlineBlockBox _ => 3
  | .BlockBox _ _ => 4
  | .AnonymousBlockBox _ => 5
  | .LineBox _ => 6

mutual

/-- Number of `TextBox` tree nodes carrying exactly the text `s` (outside
list markers, which are not tree children, are not counted). -/
def countTextB (s : String) : Box → Nat
  | .TextBox _ t => if t = s then 1 else 0
  | .ImageMarkerBox _ => 0
  | .InlineBox cs => countTextL s cs
  | .InlineBlockBox cs => countTextL s cs
  | .BlockBox cs _ => countTextL s cs
  | .AnonymousBlockBox cs => countTextL s cs
  | .LineBox cs => countTextL s cs

/-- `countTextB` summed over a list. -/
def countTextL (s : String) : List Box → Nat
  | [] => 0
  | c :: rest => countTextB s c + countTextL s rest

end

mutual

/-- Erase every text payload reachable through children (document-order
tree), leaving everything else — variants, order, image handles, outside
markers — in place.  Two boxes with equal erasures differ at most in the
texts of their tree `TextBox`es. -/
def eraseTexts : Box → Box
  | .TextBox ws _ => .TextBox ws ""
  | .ImageMarkerBox i => .ImageMarkerBox i
  | .InlineBox cs => .InlineBox (eraseTextsL cs)
  | .InlineBlockBox cs => .InlineBlockBox (eraseTextsL cs)
  | .BlockBox cs m => .BlockBox (eraseTextsL cs) m
  | .AnonymousBlockBox cs => .AnonymousBlockBox (eraseTextsL cs)
  | .LineBox cs => .LineBox (eraseTextsL cs)

/-- `eraseTexts` mapped over a list. -/
def eraseTextsL : List Box → List Box
  | [] => []
  | c :: rest => eraseTexts c :: eraseTextsL rest

end

mutual

/-- The texts of all tree `TextBox`es in document order (the order
`box.descendants()` visits them). -/
def textsB : Box → List String
  | .TextBox _ t => [t]
  | .ImageMarkerBox _ => []
  | .InlineBox cs => textsL cs
  | .InlineBlockBox cs => textsL cs
  | .BlockBox cs _ => textsL cs
  | .AnonymousBlockBox cs => textsL cs
  | .LineBox cs => textsL cs

/-- `textsB` over a list, left to right. -/
def textsL : List Box → List String
  | [] => []
  | c :: rest => textsB c ++ textsL rest

end

mutual

/-- All outside list markers in the tree, in document order, with their
full (untouched) contents. -/
def markersB : Box → List Box
  | .TextBox _ _ => []
  | .ImageMarkerBox _ => []
  | .InlineBox cs => markersL cs
  | .InlineBlockBox cs => markersL cs
  | .BlockBox cs m => (match m with | some mb => [mb] | none => []) ++ markersL cs
  | .AnonymousBlockBox cs => markersL cs
  | .LineBox cs => markersL cs

/-- `markersB` over a list. -/
def markersL : List Box → List Box
  | [] => []
  | c :: rest => markersB c ++ markersL rest

end

mutual

/-- No block-level box is reachable from this box through `InlineBox`
nesting — the reachability notion of the splitter's search (spec §4.4),
which walks into `InlineBox` children only (never into `InlineBlockBox`,
an opaque block container). -/
def inlineCleanB : Box → Bool
  | .BlockBox _ _ => false
  | .AnonymousBlockBox _ => false
  | .InlineBox cs => inlineCleanL cs
  | _ => true

/-- `inlineCleanB` for every box of the list. -/
def inlineCleanL : List Box → Bool
  | [] => true
  | c :: rest => inlineCleanB c && inlineCleanL rest

end

mutual

/-- Every `LineBox` anywhere in the tree (through children) has only
clean content: no block-level box reachable from it through `InlineBox`
nesting.  This is the spec's "no LineBox at any nesting depth contains a
block-level descendant" for the splitter's own nesting notion. -/
def splitDoneB : Box → Bool
  | .TextBox _ _ => true
  | .ImageMarkerBox _ => true
  | .InlineBox cs => splitDoneL cs
  | .InlineBlockBox cs => splitDoneL cs
  | .BlockBox cs _ => splitDoneL cs
  | .AnonymousBlockBox cs => splitDoneL cs
  | .LineBox cs => inlineCleanL cs && splitDoneL cs

/-- `splitDoneB` for every box of the list. -/
def splitDoneL : List Box → Bool
  | [] => true
  | c :: rest => splitDoneB c && splitDoneL rest

end

/-- No box of the list is a `LineBox`. -/
def noLine (cs : List Box) : Bool :=
  cs.all fun c => !isLineBox c

/-- The spec's pre-splitter structural invariant on one node (§3): a
`LineBox` child occurs only in a block container and only as an only
child. -/
def lineOkAt (b : Box) : Bool :=
  if (children b).any isLineBox then
    isBlockContainer b && decide ((children b).length = 1)
  else true

mutual

/-- The spec's pre-splitter invariant (§3), hereditarily: every `LineBox`
in the tree is the only child of a block container. -/
def wfBoxB : Box → Bool
  | .TextBox _ _ => true
  | .ImageMarkerBox _ => true
  | .InlineBox cs => noLine cs && wfBoxL cs
  | .InlineBlockBox cs => lineOkAt (.InlineBlockBox cs) && wfBoxL cs
  | .BlockBox cs m => lineOkAt (.BlockBox cs m) && wfBoxL cs
  | .AnonymousBlockBox cs => lineOkAt (.AnonymousBlockBox cs) && wfBoxL cs
  | .LineBox cs => noLine cs && wfBoxL cs

/-- `wfBoxB` for every box of the list. -/
def wfBoxL : List Box → Bool
  | [] => true
  | c :: rest => wfBoxB c && wfBoxL rest

end

mutual

/-- The remaining-work measure of a resume cursor over a child list: one
for the pending level, plus the size of the not-yet-consumed content (the
nested cursor applying to the child at the cursor's index). -/
def gCursor : List Box → SkipStack → Nat
  | cs, .node i nst => 1 + gList (cs.drop i) nst

/-- The size of the unconsumed part of a child list, the optional nested
cursor applying to its first element. -/
def gList : List Box → Option SkipStack → Nat
  | [], _ => 0
  | c :: rest, none => sizeB c + sizeBL rest
  | c :: rest, some s => gCursor (children c) s + sizeBL rest

end

/-- The remaining-work measure of `_inner_block_in_inline` on a box with a
resume cursor: the splitter loop strictly decreases it. -/
def gStack (b : Box) : Option SkipStack → Nat
  | none => sizeB b
  | some s => gCursor (children b) s

/-! ### Spec-side reference definitions

These definitions follow the claims' words (not the code) and are compared
with the embedded functions in the claim theorems. -/

mutual

/-- Stated from the claim for C3: wrap every maximal run of consecutive
inline-level children as `AnonymousBlockBox(LineBox(run))`; every
block-level child appears directly. -/
def groupRuns : List Box → List Box
  | [] => []
  | c :: rest =>
    if isInlineLevel c then groupRunsIn [c] rest
    else c :: groupRuns rest

/-- Collect the current maximal inline-level run (`run`, in order), then
wrap it and continue. -/
def groupRunsIn (run : List Box) : List Box → List Box
  | [] => [.AnonymousBlockBox [.LineBox run]]
  | c :: rest =>
    if isInlineLevel c then groupRunsIn (run ++ [c]) rest
    else .AnonymousBlockBox [.LineBox run] :: c :: groupRuns rest

end

/-- Stated from the claim for C3: the children of a block container after
normalization — exactly one bare `LineBox` when the children are purely
inline-level (and there are any), otherwise the maximal inline runs
wrapped and the block-level children direct. -/
def specGroup (cs : List Box) : List Box :=
  if cs ≠ [] ∧ cs.all isInlineLevel then [.LineBox cs]
  else groupRuns cs

/-- Stated from the claim for C4 (the claimed behavior): for each element
child, the recursively built box if not pruned, then a `TextBox` for that
element child's trailing text if non-empty; non-element nodes contribute
no boxes at all.  (The code differs: it materializes the tails of
non-element nodes too.) -/
def claimedChildBoxes (doc : Document) (ws : String) : List DomNode → List Box
  | [] => []
  | c :: rest =>
    (if c.isElement then
      (match dom_to_box doc c with
       | .ok (some b) => [b]
       | _ => []) ++
      (if c.tail ≠ "" then [Box.TextBox ws c.tail] else [])
    else []) ++ claimedChildBoxes doc ws rest

/-- The amended per-child contribution for C4: the recursively built box
for an element child that was not pruned, then a tail `TextBox` for
*every* child node (element or not) whose tail is non-empty. -/
def amendedChildBoxes (doc : Document) (ws : String) : List DomNode → List Box
  | [] => []
  | c :: rest =>
    (if c.isElement then
      (match dom_to_box doc c with
       | .ok (some b) => [b]
       | _ => [])
    else []) ++
    (if c.tail ≠ "" then [Box.TextBox ws c.tail] else []) ++
    amendedChildBoxes doc ws rest

/-- Stated from the claim for C9: insert the zero-width break-opportunity
marker immediately after every non-breaking space that is not itself
followed by another non-breaking space. -/
def specBreakAfterNbsp : List Char → List Char
  | [] => []
  | [c] => if c = NBSP then [NBSP, ZWSP] else [c]
  | c :: d :: rest =>
    (if c = NBSP ∧ d ≠ NBSP then [c, ZWSP] else [c]) ++
      specBreakAfterNbsp (d :: rest)

/-- The collapsed text of a leaf in the collapsing modes ("normal",
"nowrap", "pre-line"), before the pending-space flag is applied: newline
runs collapsed, newlines turned to spaces for "normal"/"nowrap" (not
"pre-line"), tabs to spaces, space runs collapsed (spec §4.5). -/
def collapsedText (handling : String) (text : List Char) : List Char :=
  collapseSpaces (tabsToSpace
    (if handling = "pre-line" then subNewlines text
     else newlinesToSpace (subNewlines text)))

/-! ### Concrete example trees -/

/-- Short-hand: a `TextBox` in `normal` mode. -/
def tN (s : String) : Box := .TextBox "normal" s

/-- The failing input for the splitter's cursor resume: a line with two
sibling `InlineBox` children, each containing a block-level box. -/
def exInlineSiblings : Box :=
  .BlockBox [.LineBox [
    .InlineBox [tN "a1", .BlockBox [tN "b"] none, tN "a2"],
    .InlineBox [tN "c1", .BlockBox [tN "d"] none, tN "c2"]]] none

/-- What `block_in_inline` produces on `exInlineSiblings`: the text "c1"
and the block `BlockBox[TextBox "d"]` are gone — the loop reuses the first
inline's nested cursor for the second inline sibling and skips its first
two children. -/
def outInlineSiblings : Box :=
  .BlockBox [
    .AnonymousBlockBox [.LineBox [.InlineBox [tN "a1"]]],
    .BlockBox [tN "b"] none,
    .AnonymousBlockBox [.LineBox [.InlineBox [tN "a2"], .InlineBox [tN "c2"]]]] none

/-- A document where every element is a plain block with `normal`
whitespace. -/
def docC4 : Document :=
  ⟨fun _ => ⟨"block", "normal", none, "disc", "outside"⟩,
   fun _ => .defaultHandling, fun _ => none⟩

/-- An element with leading text "a" and a single non-element child node
(a comment) whose tail text is "b". -/
def exC4 : DomNode := .mk true 0 "a" "" [.mk false 9 "" "b" []]

/-! ## Theorems -/

theorem beqBox_refl (a : Box) : beqBox a a = true := (beqBox_iff a a).2 rfl

theorem withChildren_self (b : Box) : withChildren b (children b) = b := by
  cases b <;> rfl

theorem children_withChildren (b : Box) (cs : List Box)
    (h : isParentBox b = true) : children (withChildren b cs) = cs := by
  cases b <;> simp_all [children, withChildren, isParentBox]

theorem ctorIdx_withChildren (b : Box) (cs : List Box) :
    ctorIdx (withChildren b cs) = ctorIdx b := by
  cases b <;> rfl

theorem sizeB_pos (b : Box) : 1 ≤ sizeB b := by
  cases b <;> simp [sizeB] <;> omega

theorem sizeBL_of_mem {c : Box} : ∀ {cs : List Box}, c ∈ cs →
    sizeB c ≤ sizeBL cs
  | d :: rest, h => by
    rcases List.mem_cons.1 h with rfl | h2
    · simp [sizeBL]
    · have := sizeBL_of_mem h2
      simp [sizeBL]; omega

theorem sizeB_child_lt {c b : Box} (h : c ∈ children b) :
    sizeB c < sizeB b := by
  cases b <;> simp only [children] at h
  all_goals first
    | exact absurd h (List.not_mem_nil c)
    | · have := sizeBL_of_mem h
        simp [sizeB]; omega

/-! ### Claim C5 (`inline_in_block`'s return value) -/

/-- Claim C5 counterexample: the claim says `normalize` "returns a Box for
every input box"; on a box that is not a block container (here a
`TextBox`) `inline_in_block` falls off the end and returns nothing
(build.py line 237). -/
theorem claim_C5_counterexample :
    inline_in_block (.TextBox "normal" "x") = none := by decide

/-- Claim C5 (amended): `inline_in_block` returns the (recursively
normalized) box only when the input is a block container; any other box
yields no return value, while its children are still normalized in place
and its own structure is kept. -/
theorem claim_C5 (b : Box) :
    (isBlockContainer b = true → inline_in_block b = some (iib_eff b)) ∧
    (isBlockContainer b = false → inline_in_block b = none ∧
      iib_eff b = withChildren b (iibMap (children b))) := by
  constructor
  · intro h; simp [inline_in_block, h]
  · intro h
    refine ⟨by simp [inline_in_block, h], ?_⟩
    cases b <;> simp_all [isBlockContainer, iib_eff, withChildren, children, iibMap]

/-- Claim C5 witness: a `TextBox` is not a block container, gets no return
value, and keeps its structure. -/
theorem claim_C5_witness :
    isBlockContainer (.TextBox "normal" "x") = false ∧
    (inline_in_block (.TextBox "normal" "x") = none ∧
      iib_eff (.TextBox "normal" "x") =
        withChildren (.TextBox "normal" "x")
          (iibMap (children (.TextBox "normal" "x")))) :=
  ⟨by decide, (claim_C5 (.TextBox "normal" "x")).2 (by decide)⟩

/-! ### Claim C1 (the splitter's cursor resume drops content) -/

/-- Claim C1: with two sibling `InlineBox` children each containing a
block-level box, `block_in_inline` drops content: the text "c1" and the
whole block holding "d" occur once in the input and never in the output
(the resumed search reuses the first sibling's nested cursor for the
second sibling, `skip_stack` at build.py line 413 never being cleared). -/
theorem claim_C1 :
    block_in_inline exInlineSiblings = .ok outInlineSiblings ∧
    countTextB "c1" exInlineSiblings = 1 ∧
    countTextB "c1" outInlineSiblings = 0 ∧
    countTextB "d" exInlineSiblings = 1 ∧
    countTextB "d" outInlineSiblings = 0 := by decide

/-! ### Claim C9 (`pre` / `pre-wrap` handling) -/

theorem spec_break_cons_ne (d : Char) (rest : List Char) (hd : d ≠ NBSP) :
    specBreakAfterNbsp (d :: rest) = d :: specBreakAfterNbsp rest := by
  cases rest <;> simp [specBreakAfterNbsp, hd]

theorem insertBreak_eq_spec :
    ∀ l, insertBreakOpportunities l = specBreakAfterNbsp l
  | [] => rfl
  | [c] => by
    by_cases h : c = NBSP <;>
      simp [insertBreakOpportunities, specBreakAfterNbsp, h]
  | c :: d :: rest => by
    by_cases hc : c = NBSP
    · by_cases hd : d = NBSP
      · subst hc; subst hd
        simp only [insertBreakOpportunities, if_pos rfl,
          insertBreak_eq_spec (NBSP :: rest)]
        simp [specBreakAfterNbsp]
      · subst hc
        simp only [insertBreakOpportunities, if_pos rfl, if_neg hd,
          insertBreak_eq_spec rest]
        simp [specBreakAfterNbsp, spec_break_cons_ne d rest hd, hd]
    · simp only [insertBreakOpportunities, if_neg hc,
        insertBreak_eq_spec (d :: rest)]
      simp [spec_break_cons_ne c (d :: rest) hc]

theorem process_text_pre (flag : Bool) (l : List Char) :
    process_text "pre" flag l = (spacesToNbsp l, false) := rfl

theorem process_text_prewrap (flag : Bool) (l : List Char) :
    process_text "pre-wrap" flag l =
      (insertBreakOpportunities (spacesToNbsp l), false) := rfl

/-- Claim C9: in "pre" mode every literal space becomes a non-breaking
space with no collapsing; "pre-wrap" additionally inserts the zero-width
break-opportunity marker exactly after every non-breaking space not
followed by another one; and `"a  b"` becomes two non-breaking spaces. -/
theorem claim_C9 (t : String) (flag : Bool) (h : t ≠ "") :
    pwBox flag (.TextBox "pre" t) =
      (.TextBox "pre" (String.mk (spacesToNbsp t.data)), false) ∧
    pwBox flag (.TextBox "pre-wrap" t) =
      (.TextBox "pre-wrap"
        (String.mk (specBreakAfterNbsp (spacesToNbsp t.data))), false) ∧
    process_whitespace (.TextBox "pre" "a  b") = .TextBox "pre" "a\u00A0\u00A0b" := by
  refine ⟨?_, ?_, ?_⟩
  · simp [pwBox, h, process_text_pre]
  · simp [pwBox, h, process_text_prewrap, insertBreak_eq_spec]
  · decide

/-- Claim C9 witness. -/
theorem claim_C9_witness :
    ("a \t" ≠ "") ∧
    (pwBox true (.TextBox "pre" "a \t") =
      (.TextBox "pre" (String.mk (spacesToNbsp "a \t".data)), false) ∧
    pwBox true (.TextBox "pre-wrap" "a \t") =
      (.TextBox "pre-wrap"
        (String.mk (specBreakAfterNbsp (spacesToNbsp "a \t".data))), false) ∧
    process_whitespace (.TextBox "pre" "a  b") = .TextBox "pre" "a\u00A0\u00A0b") :=
  ⟨by decide, claim_C9 "a \t" true (by decide)⟩

/-! ### Claim C6 (pending-collapsible-space threading) -/

/-- Claim C6: for a visited leaf in a collapsing mode, the text becomes
the mode's collapsed text with the leading space dropped exactly when the
incoming flag is set and the collapsed text begins with a space, and the
outgoing flag records whether the resulting text ends with a space; in
particular adjacent "normal" leaves `"foo "` and `" bar"` become `"foo "`
and `"bar"` with the flag passed between them. -/
theorem claim_C6 (handling : String) (t : String) (flag : Bool)
    (hm : handling = "normal" ∨ handling = "nowrap" ∨ handling = "pre-line")
    (h : t ≠ "") :
    (pwBox flag (.TextBox handling t) =
      (.TextBox handling (String.mk
        (if flag && beginsWithSpace (collapsedText handling t.data)
         then (collapsedText handling t.data).drop 1
         else collapsedText handling t.data)),
       endsWithSpace
        (if flag && beginsWithSpace (collapsedText handling t.data)
         then (collapsedText handling t.data).drop 1
         else collapsedText handling t.data))) ∧
    pwList false [.TextBox "normal" "foo ", .TextBox "normal" " bar"] =
      ([.TextBox "normal" "foo ", .TextBox "normal" "bar"], false) := by
  refine ⟨?_, by decide⟩
  rcases hm with rfl | rfl | rfl <;>
    (simp only [pwBox, if_neg h]; rfl)

/-- Claim C6 witness. -/
theorem claim_C6_witness :
    (("normal" : String) = "normal" ∨ ("normal" : String) = "nowrap" ∨
      ("normal" : String) = "pre-line") ∧ (" a b " : String) ≠ "" ∧
    ((pwBox true (.TextBox "normal" " a b ") =
      (.TextBox "normal" (String.mk
        (if true && beginsWithSpace (collapsedText "normal" " a b ".data)
         then (collapsedText "normal" " a b ".data).drop 1
         else collapsedText "normal" " a b ".data)),
       endsWithSpace
        (if true && beginsWithSpace (collapsedText "normal" " a b ".data)
         then (collapsedText "normal" " a b ".data).drop 1
         else collapsedText "normal" " a b ".data))) ∧
    pwList false [.TextBox "normal" "foo ", .TextBox "normal" " bar"] =
      ([.TextBox "normal" "foo ", .TextBox "normal" "bar"], false)) :=
  ⟨by decide, by decide, claim_C6 "normal" " a b " true (by decide) (by decide)⟩

/-! ### Claim C8 (`display: none` prunes the subtree) -/

/-- Claim C8: an element whose computed display is "none" builds no box at
all — for every element-handling hook and before any recursion — and as a
child it contributes only its tail text to the parent's children. -/
theorem claim_C8 (sf : Nat → Style) (he : Nat → HookResult)
    (gi : String → Option Nat) (el : DomNode) (ws : String)
    (rest : List DomNode) (h : (sf el.eid).display = "none") :
    dom_to_box ⟨sf, he, gi⟩ el = .ok none ∧
    build_children ⟨sf, he, gi⟩ ws (el :: rest) =
      (match build_children ⟨sf, he, gi⟩ ws rest with
       | .error e => .error e
       | .ok r =>
         .ok ((if el.tail ≠ "" then [Box.TextBox ws el.tail] else []) ++ r)) := by
  have h1 : dom_to_box ⟨sf, he, gi⟩ el = .ok none := by
    cases el with
    | mk isEl eid text tail kids =>
      simp only [DomNode.eid] at h
      simp [dom_to_box, h]
  refine ⟨h1, ?_⟩
  simp only [build_children, h1]
  cases hel : el.isElement <;>
    cases hrest : build_children ⟨sf, he, gi⟩ ws rest <;> simp

/-- Claim C8 witness. -/
theorem claim_C8_witness :
    ((fun _ : Nat => Style.mk "none" "normal" none "disc" "outside")
        (DomNode.eid (.mk true 0 "zz" "tt" []))).display = "none" ∧
    (dom_to_box ⟨fun _ => Style.mk "none" "normal" none "disc" "outside",
        fun _ => .defaultHandling, fun _ => none⟩ (.mk true 0 "zz" "tt" []) =
      .ok none ∧
    build_children ⟨fun _ => Style.mk "none" "normal" none "disc" "outside",
        fun _ => .defaultHandling, fun _ => none⟩ "normal"
        [DomNode.mk true 0 "zz" "tt" []] =
      (match build_children ⟨fun _ => Style.mk "none" "normal" none "disc" "outside",
          fun _ => .defaultHandling, fun _ => none⟩ "normal" ([] : List DomNode) with
       | .error e => .error e
       | .ok r =>
         .ok ((if DomNode.tail (.mk true 0 "zz" "tt" []) ≠ "" then
            [Box.TextBox "normal" (DomNode.tail (.mk true 0 "zz" "tt" []))]
          else []) ++ r))) :=
  ⟨by decide,
   claim_C8 (fun _ => Style.mk "none" "normal" none "disc" "outside")
     (fun _ => .defaultHandling) (fun _ => none) (.mk true 0 "zz" "tt" [])
     "normal" [] (by decide)⟩

/-! ### Claim C7 (list markers) -/

/-- Claim C7: a configured, resolvable marker image yields an
`ImageMarkerBox`; a configured-but-unresolvable or absent image falls back
to the glyph of `list-style-type` (disc → "•", circle → "◦", square →
"▪"); type "none" with no resolved image produces no marker at all; and a
disc / inside / no-image list item with no children yet gets
`TextBox("•")` and `TextBox(NBSP)` as its first two children. -/
theorem claim_C7 (doc : Document) (st : Style) (cs : List Box)
    (m : Option Box) :
    GLYPH_LIST_MARKERS "disc" = some "•" ∧
    GLYPH_LIST_MARKERS "circle" = some "◦" ∧
    GLYPH_LIST_MARKERS "square" = some "▪" ∧
    (∀ uri s, st.list_style_image = some uri →
      doc.get_image_surface_from_uri uri = some s →
      st.list_style_position = "outside" →
      add_list_marker doc st (.BlockBox cs m) =
        .ok (.BlockBox cs (some (.ImageMarkerBox s)))) ∧
    (∀ glyph,
      (st.list_style_image = none ∨
        ∃ uri, st.list_style_image = some uri ∧
          doc.get_image_surface_from_uri uri = none) →
      GLYPH_LIST_MARKERS st.list_style_type = some glyph →
      st.list_style_position = "outside" →
      add_list_marker doc st (.BlockBox cs m) =
        .ok (.BlockBox cs (some (.TextBox st.white_space glyph)))) ∧
    (st.list_style_type = "none" →
      (st.list_style_image = none ∨
        ∃ uri, st.list_style_image = some uri ∧
          doc.get_image_surface_from_uri uri = none) →
      add_list_marker doc st (.BlockBox cs m) = .ok (.BlockBox cs m)) ∧
    (st.list_style_type = "disc" → st.list_style_image = none →
      st.list_style_position = "inside" →
      add_list_marker doc st (.BlockBox [] m) =
        .ok (.BlockBox [.TextBox st.white_space "•",
          .TextBox st.white_space "\u00A0"] m)) := by
  refine ⟨rfl, rfl, rfl, ?_, ?_, ?_, ?_⟩
  · intro uri s h1 h2 h3
    simp [add_list_marker, h1, h2, h3]
  · intro glyph himg hg h3
    have hsurface :
        (match st.list_style_image with
          | some uri => doc.get_image_surface_from_uri uri
          | none => none) = (none : Option Nat) := by
      rcases himg with h | ⟨uri, h1, h2⟩
      · simp [h]
      · simp [h1, h2]
    have hnone : st.list_style_type ≠ "none" := by
      intro hn; rw [hn] at hg; simp [GLYPH_LIST_MARKERS] at hg
    simp [add_list_marker, hsurface, hnone, hg, h3]
  · intro ht himg
    have hsurface :
        (match st.list_style_image with
          | some uri => doc.get_image_surface_from_uri uri
          | none => none) = (none : Option Nat) := by
      rcases himg with h | ⟨uri, h1, h2⟩
      · simp [h]
      · simp [h1, h2]
    simp [add_list_marker, hsurface, ht]
  · intro ht himg h3
    simp [add_list_marker, himg, ht, h3, children, withChildren,
      GLYPH_LIST_MARKERS]

/-- Claim C7 witness: the inside / disc case at concrete values. -/
theorem claim_C7_witness :
    (Style.mk "list-item" "normal" none "disc" "inside").list_style_type
        = "disc" ∧
    add_list_marker
      ⟨fun _ => Style.mk "list-item" "normal" none "disc" "inside",
        fun _ => .defaultHandling, fun _ => none⟩
      (Style.mk "list-item" "normal" none "disc" "inside")
      (.BlockBox [] none) =
      .ok (.BlockBox [.TextBox "normal" "•", .TextBox "normal" "\u00A0"] none) :=
  ⟨by decide,
   (claim_C7 ⟨fun _ => Style.mk "list-item" "normal" none "disc" "inside",
       fun _ => .defaultHandling, fun _ => none⟩
     (Style.mk "list-item" "normal" none "disc" "inside") [] none).2.2.2.2.2.2
     (by decide) (by decide) (by decide)⟩


/-! ### Claim C4 (`dom_to_box` default construction) -/

theorem build_children_eq_amended (doc : Document) (ws : String) :
    ∀ (kids : List DomNode) (ks : List Box),
      build_children doc ws kids = .ok ks →
      ks = amendedChildBoxes doc ws kids
  | [], ks, h => by
    simp only [build_children, Except.ok.injEq] at h
    simp [amendedChildBoxes, ← h]
  | child :: rest, ks, h => by
    cases he : child.isElement <;> simp only [build_children, he] at h
    · simp only [Bool.false_eq_true, if_false] at h
      cases hr : build_children doc ws rest <;> rw [hr] at h
      · exact absurd h (by simp)
      · simp only [Except.ok.injEq] at h
        simp [amendedChildBoxes, he, ← h,
          build_children_eq_amended doc ws rest _ hr]
    · simp only [if_true] at h
      cases hdb : dom_to_box doc child <;> rw [hdb] at h
      · exact absurd h (by simp)
      · next ob =>
        cases ob <;> simp only [] at h <;>
          cases hr : build_children doc ws rest <;> rw [hr] at h
        · exact absurd h (by simp)
        · simp only [Except.ok.injEq] at h
          simp [amendedChildBoxes, he, hdb, ← h,
            build_children_eq_amended doc ws rest _ hr]
        · exact absurd h (by simp)
        · simp only [Except.ok.injEq] at h
          simp [amendedChildBoxes, he, hdb, ← h,
            build_children_eq_amended doc ws rest _ hr]

/-- Claim C4 counterexample: the claim says non-element nodes contribute
no boxes at all (tail `TextBox`es only for element children); the code
materializes the tail of a comment node too, so the built children are
`[TextBox "a", TextBox "b"]` while the claimed assembly predicts only
`[TextBox "a"]`. -/
theorem claim_C4_counterexample :
    dom_to_box docC4 exC4 =
      .ok (some (.BlockBox [tN "a", tN "b"] none)) ∧
    claimedChildBoxes docC4 "normal" (DomNode.childNodes exC4) = [] ∧
    [Box.TextBox "normal" "a"] ++
        claimedChildBoxes docC4 "normal" (DomNode.childNodes exC4) ≠
      [tN "a", tN "b"] := by decide

/-- Claim C4 (amended): for an element built by default construction with
display "block", the children are, in document order, a `TextBox` for the
element's leading text if non-empty, then for each child node the
recursively built box (elements only, when not pruned) followed by a
`TextBox` for that child's trailing text if non-empty — tails of
non-element nodes included. -/
theorem claim_C4 (doc : Document) (iE : Bool) (eid : Nat)
    (text tail : String) (kids : List DomNode) (ks : List Box)
    (hdisp : (doc.style_for eid).display = "block")
    (hhook : doc.handle_element eid = .defaultHandling)
    (hkids : build_children doc (doc.style_for eid).white_space kids = .ok ks) :
    dom_to_box doc (.mk iE eid text tail kids) =
      .ok (some (.BlockBox
        ((if text ≠ "" then [Box.TextBox (doc.style_for eid).white_space text]
          else []) ++ ks) none)) ∧
    ks = amendedChildBoxes doc (doc.style_for eid).white_space kids := by
  refine ⟨?_, build_children_eq_amended doc _ kids ks hkids⟩
  simp [dom_to_box, hdisp, hhook, hkids, children, withChildren]

/-- Claim C4 witness. -/
theorem claim_C4_witness :
    (docC4.style_for 0).display = "block" ∧
    docC4.handle_element 0 = .defaultHandling ∧
    build_children docC4 (docC4.style_for 0).white_space
        [DomNode.mk false 9 "" "b" []] = .ok [tN "b"] ∧
    (dom_to_box docC4 (.mk true 0 "a" "" [.mk false 9 "" "b" []]) =
      .ok (some (.BlockBox
        ((if ("a" : String) ≠ "" then
            [Box.TextBox (docC4.style_for 0).white_space "a"] else []) ++
          [tN "b"]) none)) ∧
    [tN "b"] = amendedChildBoxes docC4 (docC4.style_for 0).white_space
        [DomNode.mk false 9 "" "b" []]) :=
  ⟨by decide, rfl, by decide,
   claim_C4 docC4 true 0 "a" "" [.mk false 9 "" "b" []] [tN "b"]
     (by decide) rfl (by decide)⟩

/-! ### Claim C3 (the normalizer groups maximal inline runs) -/

theorem noLine_cons (c : Box) (rest : List Box) :
    noLine (c :: rest) = (!isLineBox c && noLine rest) := by
  simp [noLine, List.all_cons]

theorem blockLevel_not_inlineLevel {c : Box} (h : isBlockLevel c = true) :
    isInlineLevel c = false := by
  cases c <;> simp_all [isBlockLevel, isInlineLevel]

theorem blockLevel_of_not_inline_line {c : Box}
    (h1 : isInlineLevel c = false) (h2 : isLineBox c = false) :
    isBlockLevel c = true := by
  cases c <;> simp_all [isBlockLevel, isInlineLevel, isLineBox]

theorem iibLoop_all_inline :
    ∀ (cs acc line : List Box), cs.all isInlineLevel = true →
      iibLoop cs acc line = (acc, line ++ cs)
  | [], acc, line, _ => by simp [iibLoop]
  | c :: rest, acc, line, h => by
    simp only [List.all_cons, Bool.and_eq_true] at h
    have hb : isBlockLevel c = false := by
      cases c <;> simp_all [isBlockLevel, isInlineLevel]
    have hl : isLineBox c = false := by
      cases c <;> simp_all [isLineBox, isInlineLevel]
    simp [iibLoop, hb, hl, iibLoop_all_inline rest acc (line ++ [c]) h.2]

/-- The unconditional trailing flush (always wrapping a pending non-empty
line in an anonymous block); `iibFinish` agrees with it whenever the
accumulated output is non-empty. -/
def flushEnd : List Box × List Box → List Box
  | (acc, line) =>
    if line.isEmpty then acc else acc ++ [.AnonymousBlockBox [.LineBox line]]

theorem iibLoop_flushEnd :
    ∀ (cs acc line : List Box), noLine cs = true →
      flushEnd (iibLoop cs acc line) =
        acc ++ (if line.isEmpty then groupRuns cs else groupRunsIn line cs)
  | [], acc, line, _ => by
    cases line <;> simp [iibLoop, flushEnd, groupRuns, groupRunsIn]
  | c :: rest, acc, line, h => by
    rw [noLine_cons] at h
    simp only [Bool.and_eq_true, Bool.not_eq_true'] at h
    obtain ⟨hl, hrest⟩ := h
    by_cases hb : isBlockLevel c = true
    · have hi := blockLevel_not_inlineLevel hb
      have hstep : iibLoop (c :: rest) acc line =
          iibLoop rest ((if line.isEmpty then acc
            else acc ++ [.AnonymousBlockBox [.LineBox line]]) ++ [c]) [] := by
        simp [iibLoop, hb]
      rw [hstep, iibLoop_flushEnd rest
        ((if line.isEmpty then acc
          else acc ++ [Box.AnonymousBlockBox [Box.LineBox line]]) ++ [c]) []
        hrest]
      cases hline : line.isEmpty
      · simp [hline, groupRunsIn, hi]
      · have hle : line = [] := by cases line <;> simp_all
        subst hle
        simp [groupRuns, hi]
    · have hb2 : isBlockLevel c = false := by simpa using hb
      have hi : isInlineLevel c = true := by
        by_contra hcon
        exact absurd (blockLevel_of_not_inline_line (by simpa using hcon) hl)
          (by simp [hb2])
      have hstep : iibLoop (c :: rest) acc line = iibLoop rest acc (line ++ [c]) := by
        simp [iibLoop, hb2, hl]
      rw [hstep, iibLoop_flushEnd rest acc (line ++ [c]) hrest]
      cases hline : line.isEmpty
      · have : groupRunsIn line (c :: rest) = groupRunsIn (line ++ [c]) rest := by
          simp [groupRunsIn, hi]
        simp [hline, this]
      · have hle : line = [] := by cases line <;> simp_all
        subst hle
        have : groupRuns (c :: rest) = groupRunsIn [c] rest := by
          simp [groupRuns, hi]
        simp [this]

theorem iibLoop_acc_ne :
    ∀ (cs acc line : List Box), acc ≠ [] → (iibLoop cs acc line).1 ≠ []
  | [], acc, line, h => by simpa [iibLoop] using h
  | c :: rest, acc, line, h => by
    by_cases hb : isBlockLevel c = true
    · simp only [iibLoop, hb, if_true]
      exact iibLoop_acc_ne rest _ [] (by cases line <;> simp)
    · have hb2 : isBlockLevel c = false := by simpa using hb
      cases hl : isLineBox c <;>
        simp only [iibLoop, hb2, Bool.false_eq_true, if_false, hl, if_true] <;>
        exact iibLoop_acc_ne rest acc _ h

theorem iibLoop_any_block :
    ∀ (cs acc line : List Box), cs.any isBlockLevel = true →
      (iibLoop cs acc line).1 ≠ []
  | [], _, _, h => by simp at h
  | c :: rest, acc, line, h => by
    by_cases hb : isBlockLevel c = true
    · simp only [iibLoop, hb, if_true]
      exact iibLoop_acc_ne rest _ [] (by cases line <;> simp)
    · have hb2 : isBlockLevel c = false := by simpa using hb
      have hrest : rest.any isBlockLevel = true := by
        simp only [List.any_cons, hb2, Bool.false_or] at h
        exact h
      cases hl : isLineBox c <;>
        simp only [iibLoop, hb2, Bool.false_eq_true, if_false, hl, if_true] <;>
        exact iibLoop_any_block rest _ _ hrest

theorem iibRestructure_eq_specGroup (cs : List Box) (h : noLine cs = true) :
    iibRestructure cs = specGroup cs := by
  by_cases hall : cs.all isInlineLevel = true
  · cases cs with
    | nil => rfl
    | cons c rest =>
      rw [iibRestructure, iibLoop_all_inline (c :: rest) [] [] hall]
      simp [iibFinish, specGroup, hall]
  · have hany : cs.any isBlockLevel = true := by
      rw [List.all_eq_true] at hall
      push_neg at hall
      obtain ⟨c, hc, hci⟩ := hall
      rw [List.any_eq_true]
      refine ⟨c, hc, ?_⟩
      have hlc : isLineBox c = false := by
        rw [noLine, List.all_eq_true] at h
        simpa using h c hc
      exact blockLevel_of_not_inline_line (by simpa using hci) hlc
    have hne := iibLoop_any_block cs [] [] hany
    have hfl := iibLoop_flushEnd cs [] [] h
    have heq : iibFinish (iibLoop cs [] []) = flushEnd (iibLoop cs [] []) := by
      rcases hr : iibLoop cs [] [] with ⟨a, l⟩
      rw [hr] at hne
      simp only at hne
      cases hl : l.isEmpty <;>
        simp [iibFinish, flushEnd, hl, hne]
    rw [iibRestructure, heq, hfl]
    simp [specGroup, hall]

theorem iibMap_ctor (c : Box) : isLineBox (iib_eff c) = isLineBox c := by
  cases c <;> rfl

theorem noLine_iibMap : ∀ cs : List Box, noLine (iibMap cs) = noLine cs
  | [] => rfl
  | c :: rest => by
    rw [iibMap, noLine_cons, noLine_cons, iibMap_ctor c, noLine_iibMap rest]

/-- Claim C3: for a block container whose children are not line boxes,
normalization rewrites the child list to the claimed grouping: exactly one
bare `LineBox` when the (normalized) children are purely inline-level,
otherwise each maximal run of consecutive inline-level children wrapped as
`AnonymousBlockBox(LineBox(run))` with block-level children direct, in
document order. -/
theorem claim_C3 (b : Box) (hc : isBlockContainer b = true)
    (hl : noLine (children b) = true) :
    children (iib_eff b) = specGroup (iibMap (children b)) := by
  have h2 : noLine (iibMap (children b)) = true := by
    rw [noLine_iibMap]; exact hl
  cases b with
  | InlineBlockBox cs =>
    simp only [children] at h2
    simp only [iib_eff, children]
    exact iibRestructure_eq_specGroup _ h2
  | BlockBox cs m =>
    simp only [children] at h2
    simp only [iib_eff, children]
    exact iibRestructure_eq_specGroup _ h2
  | AnonymousBlockBox cs =>
    simp only [children] at h2
    simp only [iib_eff, children]
    exact iibRestructure_eq_specGroup _ h2
  | TextBox ws t => simp [isBlockContainer] at hc
  | ImageMarkerBox i => simp [isBlockContainer] at hc
  | InlineBox cs => simp [isBlockContainer] at hc
  | LineBox cs => simp [isBlockContainer] at hc

/-- Claim C3 witness: `BlockBox[TextBox, InlineBox, BlockBox]` becomes
`[AnonymousBlockBox(LineBox(TextBox, InlineBox)), BlockBox]`. -/
theorem claim_C3_witness :
    isBlockContainer (.BlockBox [tN "t", .InlineBox [tN "i"],
        .BlockBox [tN "b"] none] none) = true ∧
    noLine (children (.BlockBox [tN "t", .InlineBox [tN "i"],
        .BlockBox [tN "b"] none] none)) = true ∧
    children (iib_eff (.BlockBox [tN "t", .InlineBox [tN "i"],
        .BlockBox [tN "b"] none] none)) =
      specGroup (iibMap (children (.BlockBox [tN "t", .InlineBox [tN "i"],
        .BlockBox [tN "b"] none] none))) ∧
    children (iib_eff (.BlockBox [tN "t", .InlineBox [tN "i"],
        .BlockBox [tN "b"] none] none)) =
      [.AnonymousBlockBox [.LineBox [tN "t", .InlineBox [tN "i"]]],
       .BlockBox [.LineBox [tN "b"]] none] :=
  ⟨by decide, by decide,
   claim_C3 (.BlockBox [tN "t", .InlineBox [tN "i"],
     .BlockBox [tN "b"] none] none) (by decide) (by decide),
   by decide⟩

/-! ### Claim C10 (`process_whitespace` only rewrites text payloads) -/

mutual

theorem pw_erase_box : ∀ (flag : Bool) (b : Box),
    eraseTexts (pwBox flag b).1 = eraseTexts b
  | flag, .TextBox ws t => by
    by_cases h : t = "" <;> simp [pwBox, h, eraseTexts]
  | _, .ImageMarkerBox i => rfl
  | flag, .InlineBox cs => by
    simp [pwBox, eraseTexts, pw_erase_list flag cs]
  | flag, .InlineBlockBox cs => by
    simp [pwBox, eraseTexts, pw_erase_list flag cs]
  | flag, .BlockBox cs m => by
    simp [pwBox, eraseTexts, pw_erase_list flag cs]
  | flag, .AnonymousBlockBox cs => by
    simp [pwBox, eraseTexts, pw_erase_list flag cs]
  | flag, .LineBox cs => by
    simp [pwBox, eraseTexts, pw_erase_list flag cs]

theorem pw_erase_list : ∀ (flag : Bool) (cs : List Box),
    eraseTextsL (pwList flag cs).1 = eraseTextsL cs
  | _, [] => rfl
  | flag, c :: rest => by
    simp [pwList, eraseTextsL, pw_erase_box flag c,
      pw_erase_list (pwBox flag c).2 rest]

end

mutual

theorem pw_markers_box : ∀ (flag : Bool) (b : Box),
    markersB (pwBox flag b).1 = markersB b
  | flag, .TextBox ws t => by
    by_cases h : t = "" <;> simp [pwBox, h, markersB]
  | _, .ImageMarkerBox i => rfl
  | flag, .InlineBox cs => by
    simp [pwBox, markersB, pw_markers_list flag cs]
  | flag, .InlineBlockBox cs => by
    simp [pwBox, markersB, pw_markers_list flag cs]
  | flag, .BlockBox cs m => by
    simp [pwBox, markersB, pw_markers_list flag cs]
  | flag, .AnonymousBlockBox cs => by
    simp [pwBox, markersB, pw_markers_list flag cs]
  | flag, .LineBox cs => by
    simp [pwBox, markersB, pw_markers_list flag cs]

theorem pw_markers_list : ∀ (flag : Bool) (cs : List Box),
    markersL (pwList flag cs).1 = markersL cs
  | _, [] => rfl
  | flag, c :: rest => by
    simp [pwList, markersL, pw_markers_box flag c,
      pw_markers_list (pwBox flag c).2 rest]

end

mutual

theorem pw_texts_box : ∀ (flag : Bool) (b : Box),
    (textsB (pwBox flag b).1).length = (textsB b).length ∧
    ((textsB b).zip (textsB (pwBox flag b).1)).all
      (fun p => !(p.1 == "") || (p.2 == p.1)) = true
  | flag, .TextBox ws t => by
    by_cases h : t = "" <;> simp [pwBox, h, textsB]
  | _, .ImageMarkerBox i => by simp [pwBox, textsB]
  | flag, .InlineBox cs => by
    simpa [pwBox, textsB] using pw_texts_list flag cs
  | flag, .InlineBlockBox cs => by
    simpa [pwBox, textsB] using pw_texts_list flag cs
  | flag, .BlockBox cs m => by
    simpa [pwBox, textsB] using pw_texts_list flag cs
  | flag, .AnonymousBlockBox cs => by
    simpa [pwBox, textsB] using pw_texts_list flag cs
  | flag, .LineBox cs => by
    simpa [pwBox, textsB] using pw_texts_list flag cs

theorem pw_texts_list : ∀ (flag : Bool) (cs : List Box),
    (textsL (pwList flag cs).1).length = (textsL cs).length ∧
    ((textsL cs).zip (textsL (pwList flag cs).1)).all
      (fun p => !(p.1 == "") || (p.2 == p.1)) = true
  | _, [] => by simp [pwList, textsL]
  | flag, c :: rest => by
    have h1 := pw_texts_box flag c
    have h2 := pw_texts_list (pwBox flag c).2 rest
    constructor
    · simp [pwList, textsL, h1.1, h2.1]
    · have hz : (textsL (c :: rest)).zip (textsL (pwList flag (c :: rest)).1) =
          (textsB c).zip (textsB (pwBox flag c).1) ++
            (textsL rest).zip (textsL (pwList (pwBox flag c).2 rest).1) := by
        simp only [textsL, pwList]
        exact List.zip_append h1.1.symm
      rw [hz, List.all_append, h1.2, h2.2]
      rfl

end

/-- Claim C10: `process_whitespace` never changes the tree's structure:
the text-erased tree is unchanged (same boxes, variants, order and
non-text fields), outside list markers are untouched in full, the
sequence of text payloads keeps its length, and a payload that was empty
stays exactly as it was — only non-empty `TextBox` texts are rewritten.
The Python function returns the very box object it was given; the
embedding returns the rewritten tree rooted at the same node. -/
theorem claim_C10 (b : Box) (flag : Bool) :
    eraseTexts (pwBox flag b).1 = eraseTexts b ∧
    markersB (pwBox flag b).1 = markersB b ∧
    (textsB (pwBox flag b).1).length = (textsB b).length ∧
    ((textsB b).zip (textsB (pwBox flag b).1)).all
      (fun p => !(p.1 == "") || (p.2 == p.1)) = true ∧
    eraseTexts (process_whitespace b) = eraseTexts b :=
  ⟨pw_erase_box flag b, pw_markers_box flag b, (pw_texts_box flag b).1,
   (pw_texts_box flag b).2, pw_erase_box false b⟩

/-! ### Claim C2: groundwork -/

theorem sizeB_eq (b : Box) : sizeB b = 1 + sizeBL (children b) := by
  cases b <;> rfl

theorem sizeBL_append : ∀ xs ys : List Box,
    sizeBL (xs ++ ys) = sizeBL xs + sizeBL ys
  | [], ys => by simp [sizeBL]
  | x :: xs, ys => by simp [sizeBL, sizeBL_append xs ys]; omega

theorem sizeBL_drop_le : ∀ (i : Nat) (cs : List Box),
    sizeBL (cs.drop i) ≤ sizeBL cs
  | 0, cs => le_rfl
  | _ + 1, [] => le_rfl
  | i + 1, c :: rest => by
    have := sizeBL_drop_le i rest
    simp only [List.drop_succ_cons, sizeBL]
    omega

theorem isLineBox_withChildren (b : Box) (cs : List Box) :
    isLineBox (withChildren b cs) = isLineBox b := by cases b <;> rfl

theorem isParentBox_withChildren (b : Box) (cs : List Box) :
    isParentBox (withChildren b cs) = isParentBox b := by cases b <;> rfl

theorem isBlockContainer_withChildren (b : Box) (cs : List Box) :
    isBlockContainer (withChildren b cs) = isBlockContainer b := by
  cases b <;> rfl

theorem isLineBox_of_ctorIdx {a b : Box} (h : ctorIdx a = ctorIdx b) :
    isLineBox a = isLineBox b := by
  cases a <;> cases b <;> simp_all [ctorIdx, isLineBox]

theorem isBlockContainer_of_ctorIdx {a b : Box} (h : ctorIdx a = ctorIdx b) :
    isBlockContainer a = isBlockContainer b := by
  cases a <;> cases b <;> simp_all [ctorIdx, isBlockContainer]

theorem isBlockLevel_of_ctorIdx {a b : Box} (h : ctorIdx a = ctorIdx b) :
    isBlockLevel a = isBlockLevel b := by
  cases a <;> cases b <;> simp_all [ctorIdx, isBlockLevel]

theorem wfBox_eq (b : Box) :
    wfBoxB b = ((if isInlineBox b || isLineBox b then noLine (children b)
      else lineOkAt b) && wfBoxL (children b)) := by
  cases b <;>
    simp [wfBoxB, isInlineBox, isLineBox, children, lineOkAt, noLine, wfBoxL]

theorem splitDone_eq (b : Box) :
    splitDoneB b = ((if isLineBox b then inlineCleanL (children b) else true)
      && splitDoneL (children b)) := by
  cases b <;> simp [splitDoneB, isLineBox, children, splitDoneL]

theorem wfBoxL_append : ∀ xs ys : List Box,
    wfBoxL (xs ++ ys) = (wfBoxL xs && wfBoxL ys)
  | [], ys => by simp [wfBoxL]
  | x :: xs, ys => by
    simp [wfBoxL, wfBoxL_append xs ys, Bool.and_assoc]

theorem splitDoneL_append : ∀ xs ys : List Box,
    splitDoneL (xs ++ ys) = (splitDoneL xs && splitDoneL ys)
  | [], ys => by simp [splitDoneL]
  | x :: xs, ys => by
    simp [splitDoneL, splitDoneL_append xs ys, Bool.and_assoc]

theorem inlineCleanL_append : ∀ xs ys : List Box,
    inlineCleanL (xs ++ ys) = (inlineCleanL xs && inlineCleanL ys)
  | [], ys => by simp [inlineCleanL]
  | x :: xs, ys => by
    simp [inlineCleanL, inlineCleanL_append xs ys, Bool.and_assoc]

theorem wfBoxL_mem : ∀ {cs : List Box}, wfBoxL cs = true →
    ∀ {c : Box}, c ∈ cs → wfBoxB c = true
  | d :: rest, h, c, hm => by
    simp only [wfBoxL, Bool.and_eq_true] at h
    rcases List.mem_cons.1 hm with rfl | hm2
    · exact h.1
    · exact wfBoxL_mem h.2 hm2

theorem wf_children {b : Box} (h : wfBoxB b = true) :
    wfBoxL (children b) = true := by
  rw [wfBox_eq, Bool.and_eq_true] at h
  exact h.2

theorem wf_child {b c : Box} (h : wfBoxB b = true) (hm : c ∈ children b) :
    wfBoxB c = true :=
  wfBoxL_mem (wf_children h) hm

theorem wfL_drop {cs : List Box} (h : wfBoxL cs = true) (i : Nat) :
    wfBoxL (cs.drop i) = true := by
  induction i generalizing cs with
  | zero => exact h
  | succ i ih =>
    cases cs with
    | nil => exact h
    | cons c rest =>
      simp only [wfBoxL, Bool.and_eq_true] at h
      exact ih h.2

theorem noLine_drop {cs : List Box} (h : noLine cs = true) (i : Nat) :
    noLine (cs.drop i) = true := by
  induction i generalizing cs with
  | zero => exact h
  | succ i ih =>
    cases cs with
    | nil => exact h
    | cons c rest =>
      rw [noLine_cons, Bool.and_eq_true] at h
      exact ih h.2

theorem gList_none : ∀ cs : List Box, gList cs none = sizeBL cs
  | [] => rfl
  | c :: rest => by simp [gList, sizeBL]

mutual

theorem gCursor_le : ∀ (cs : List Box) (s : SkipStack),
    gCursor cs s ≤ 1 + sizeBL cs
  | cs, .node i nst => by
    rw [gCursor]
    have h1 := gList_le (cs.drop i) nst
    have h2 := sizeBL_drop_le i cs
    omega

theorem gList_le : ∀ (cs : List Box) (nst : Option SkipStack),
    gList cs nst ≤ sizeBL cs
  | [], nst => by cases nst <;> simp [gList]
  | c :: rest, none => by simp [gList, sizeBL]
  | c :: rest, some s => by
    rw [gList]
    have h1 := gCursor_le (children c) s
    have h2 : sizeB c = 1 + sizeBL (children c) := sizeB_eq c
    simp only [sizeBL]
    omega

end

theorem gStack_le (b : Box) (st : Option SkipStack) :
    gStack b st ≤ sizeB b := by
  cases st with
  | none => exact le_rfl
  | some s =>
    rw [gStack]
    have := gCursor_le (children b) s
    rw [sizeB_eq b]
    omega

theorem gStack_pos (b : Box) (st : Option SkipStack) : 1 ≤ gStack b st := by
  cases st with
  | none => exact sizeB_pos b
  | some s => cases s with | node i nst => rw [gStack, gCursor]; omega

theorem pow16_pos (k : Nat) : 1 ≤ 16 ^ k := Nat.one_le_pow k 16 (by norm_num)

theorem pow16_mono {a b : Nat} (h : a ≤ b) : 16 ^ a ≤ 16 ^ b :=
  Nat.pow_le_pow_right (by norm_num) h

theorem lt_pow16 (n : Nat) : n < 16 ^ n := Nat.lt_pow_self (by norm_num) n

/-! ### Claim C2: conclusions of the adequacy lemmas -/

/-- Outcome of `block_in_inlineF` on a well-formed non-line box at
sufficient fuel: success, well-formedness, no block left in any line, and
the box variant preserved. -/
def BiiConc (b : Box) (f : Nat) : Prop :=
  ∃ r, block_in_inlineF f b = .ok r ∧ wfBoxB r = true ∧
    splitDoneB r = true ∧ ctorIdx r = ctorIdx b

/-- Outcome of `innerF`: success; the new box has the same variant, is
well-formed, fully split and clean; a found block is a well-formed
non-line strict subtree and comes with a resume cursor of strictly smaller
measure; no block means no resume cursor. -/
def InnerConc (c : Box) (st : Option SkipStack) (f : Nat) : Prop :=
  ∃ nb oblk ost, innerF f c st = .ok (nb, oblk, ost) ∧
    ctorIdx nb = ctorIdx c ∧ wfBoxB nb = true ∧ splitDoneB nb = true ∧
    inlineCleanB nb = true ∧
    (∀ blk, oblk = some blk → wfBoxB blk = true ∧ isLineBox blk = false ∧
      sizeB blk < sizeB c ∧
      ∃ st2, ost = some st2 ∧ gStack c (some st2) < gStack c st) ∧
    (oblk = none → ost = none)

/-- Outcome of `splitLoopF`: success; every collected pair holds a
well-formed, fully split line piece of the original variant and a
well-formed, fully split non-line block; the final line piece is
well-formed and fully split. -/
def SplitConc (c : Box) (st : Option SkipStack) (f : Nat) : Prop :=
  ∃ pairs lastLine, splitLoopF f c st = .ok (pairs, lastLine) ∧
    (∀ p ∈ pairs, ctorIdx p.1 = ctorIdx c ∧ wfBoxB p.1 = true ∧
      splitDoneB p.1 = true ∧ wfBoxB p.2 = true ∧ splitDoneB p.2 = true ∧
      isLineBox p.2 = false) ∧
    ctorIdx lastLine = ctorIdx c ∧ wfBoxB lastLine = true ∧
    splitDoneB lastLine = true

/-- `block_in_inlineF` behaves well on `b` at any sufficient fuel. -/
def BiiP (b : Box) : Prop :=
  wfBoxB b = true → isLineBox b = false → ∀ f, 16 ^ sizeB b ≤ f → BiiConc b f

/-- `innerF` behaves well on `c` at any sufficient fuel. -/
def InnerP (c : Box) : Prop :=
  wfBoxB c = true → noLine (children c) = true → isBlockLevel c = false →
  ∀ st f, 16 ^ sizeB c ≤ f → InnerConc c st f

/-- `splitLoopF` behaves well on `c` at any sufficient fuel. -/
def SplitP (c : Box) : Prop :=
  wfBoxB c = true → noLine (children c) = true → isBlockLevel c = false →
  ∀ st f, gStack c st + 16 ^ sizeB c ≤ f → SplitConc c st f

/-- Identity outcome of `innerF` on a clean, fully split box. -/
def InnerIDP (c : Box) : Prop :=
  wfBoxB c = true → noLine (children c) = true →
  inlineCleanL (children c) = true → splitDoneL (children c) = true →
  ∀ f, 16 ^ sizeB c ≤ f → innerF f c none = .ok (c, none, none)

/-- Identity outcome of `block_in_inlineF` on a fully split box. -/
def BiiIDP (b : Box) : Prop :=
  wfBoxB b = true → splitDoneB b = true → isLineBox b = false →
  ∀ f, 16 ^ sizeB b ≤ f → block_in_inlineF f b = .ok b

/-! ### Claim C2: more small facts -/

theorem gCursor_pos (cs : List Box) (s : SkipStack) : 1 ≤ gCursor cs s := by
  cases s with | node i nst => rw [gCursor]; omega

theorem gList_cons_ge (c : Box) (rest : List Box) (stale : Option SkipStack) :
    sizeBL rest + 1 ≤ gList (c :: rest) stale := by
  cases stale with
  | none => have := sizeB_pos c; rw [gList]; omega
  | some s => have := gCursor_pos (children c) s; rw [gList]; omega

theorem lineOk_of_noLine {x : Box} (h : noLine (children x) = true) :
    lineOkAt x = true := by
  rw [lineOkAt]
  have : (children x).any isLineBox = false := by
    rw [noLine] at h
    rw [List.any_eq_false]
    intro c hc
    have := List.all_eq_true.1 h c hc
    simpa using this
  simp [this]

theorem children_ne_nil_parent {c : Box} (h : children c ≠ []) :
    isParentBox c = true := by
  cases c <;> simp_all [children, isParentBox]

theorem withChildren_leaf {c : Box} (h : isParentBox c = false)
    (acc : List Box) : withChildren c acc = c := by
  cases c <;> simp_all [withChildren, isParentBox]

theorem inlineCleanB_withChildren_of {c : Box} (hnb : isBlockLevel c = false)
    {acc : List Box} (hacc : inlineCleanL acc = true) :
    inlineCleanB (withChildren c acc) = true := by
  cases c <;> simp_all [withChildren, inlineCleanB, isBlockLevel]

theorem wf_singleton_line {b c : Box} (hwf : wfBoxB b = true)
    (hm : c ∈ children b) (hl : isLineBox c = true) :
    children b = [c] ∧ isBlockContainer b = true := by
  rw [wfBox_eq, Bool.and_eq_true] at hwf
  have hany : (children b).any isLineBox = true :=
    List.any_eq_true.2 ⟨c, hm, hl⟩
  rcases hif : (isInlineBox b || isLineBox b) with _ | _
  · rw [hif] at hwf
    simp only [Bool.false_eq_true, if_false] at hwf
    have hok := hwf.1
    rw [lineOkAt, hany, if_pos rfl, Bool.and_eq_true] at hok
    have hlen : (children b).length = 1 := by
      have := hok.2
      simpa using this
    constructor
    · cases hcs : children b with
      | nil => rw [hcs] at hm; exact absurd hm (List.not_mem_nil c)
      | cons x rest =>
        rw [hcs] at hlen hm
        simp only [List.length_cons] at hlen
        have : rest = [] := List.length_eq_zero.1 (by omega)
        subst this
        rcases List.mem_singleton.1 hm with rfl
        rfl
    · exact hok.1
  · rw [hif] at hwf
    simp only [if_true] at hwf
    have := hwf.1
    rw [noLine, List.all_eq_true] at this
    have := this c hm
    simp [hl] at this

theorem splitDoneB_leaf_or {c : Box} (h : isParentBox c = false) :
    splitDoneB c = true := by
  cases c <;> simp_all [splitDoneB, isParentBox, splitDoneL]

theorem inlineCleanB_leaf {c : Box} (h : isParentBox c = false) :
    inlineCleanB c = true := by
  cases c <;> simp_all [inlineCleanB, isParentBox]

theorem beqBox_false_iff {a b : Box} : (!beqBox a b) = true ↔ a ≠ b := by
  rw [Bool.not_eq_true']
  constructor
  · intro h he
    rw [he, beqBox_refl] at h
    exact absurd h (by simp)
  · intro h
    cases hb : beqBox a b
    · rfl
    · exact absurd ((beqBox_iff a b).1 hb) h

theorem arith_bii_child {sb sc len : Nat} (h1 : sc < sb) (h2 : len < sb) :
    sc + 16 ^ sc + len + 1 ≤ 16 ^ sb := by
  have ha := lt_pow16 (sb - 1)
  have hb : 16 ^ (sb - 1 + 1) ≤ 16 ^ sb := pow16_mono (by omega)
  have hc : 16 ^ sc ≤ 16 ^ (sb - 1) := pow16_mono (by omega)
  have hd : 16 ^ (sb - 1 + 1) = 16 * 16 ^ (sb - 1) := by
    rw [Nat.pow_succ]; ring
  omega

theorem arith_inner_child {sb sc len : Nat} (h1 : sc < sb) (h2 : len < sb) :
    16 ^ sc + len + 2 ≤ 16 ^ sb := by
  have ha := lt_pow16 (sb - 1)
  have hb : 16 ^ (sb - 1 + 1) ≤ 16 ^ sb := pow16_mono (by omega)
  have hc : 16 ^ sc ≤ 16 ^ (sb - 1) := pow16_mono (by omega)
  have hd : 16 ^ (sb - 1 + 1) = 16 * 16 ^ (sb - 1) := by
    rw [Nat.pow_succ]; ring
  omega

theorem children_length_lt (b : Box) : (children b).length < sizeB b := by
  rw [sizeB_eq]
  have : (children b).length ≤ sizeBL (children b) := by
    clear * -
    induction children b with
    | nil => simp [sizeBL]
    | cons c rest ih =>
      have := sizeB_pos c
      simp only [List.length_cons, sizeBL]
      omega
  omega

theorem isInlineBox_of_ctorIdx {a b : Box} (h : ctorIdx a = ctorIdx b) :
    isInlineBox a = isInlineBox b := by
  cases a <;> cases b <;> simp_all [ctorIdx, isInlineBox]

theorem inlineCleanB_of_neither {r : Box} (h1 : isBlockLevel r = false)
    (h2 : isInlineBox r = false) : inlineCleanB r = true := by
  cases r <;> simp_all [inlineCleanB, isBlockLevel, isInlineBox]

theorem pow16_ge_16 (c : Box) : 16 ≤ 16 ^ sizeB c := by
  have : (16 : Nat) ^ 1 ≤ 16 ^ sizeB c := pow16_mono (sizeB_pos c)
  simpa using this

/-- Adequacy of the child loop of `_inner_block_in_inline`: on well-formed
line-free children with enough fuel it succeeds; the accumulated children
are well-formed, fully split and clean; a found block is well-formed,
non-line, no bigger than some scanned child, and the resume cursor
strictly shrinks the measure; with no block found, an unchanged flag means
the children were returned verbatim. -/
theorem innerLoopA (n : Nat)
    (IHbii : ∀ c : Box, sizeB c ≤ n → BiiP c)
    (IHinner : ∀ c : Box, sizeB c ≤ n → InnerP c) :
    ∀ (cs : List Box) (idx : Nat) (stale : Option SkipStack) (f : Nat),
      wfBoxL cs = true → noLine cs = true →
      (∀ c ∈ cs, sizeB c ≤ n) →
      (∀ c ∈ cs, 16 ^ sizeB c + cs.length ≤ f) → 1 ≤ f →
      ∃ acc changed oblk ost,
        innerLoopF f stale cs idx = .ok (acc, changed, oblk, ost) ∧
        wfBoxL acc = true ∧ splitDoneL acc = true ∧
        inlineCleanL acc = true ∧ noLine acc = true ∧
        (∀ blk, oblk = some blk → wfBoxB blk = true ∧ isLineBox blk = false ∧
          (∃ c ∈ cs, sizeB blk ≤ sizeB c) ∧
          ∃ i2 nst2, ost = some (.node i2 nst2) ∧ idx ≤ i2 ∧
            gList (cs.drop (i2 - idx)) nst2 < gList cs stale) ∧
        (oblk = none → ost = none ∧ (changed = false → acc = cs)) := by
  intro cs
  induction cs with
  | nil =>
    intro idx stale f _ _ _ _ hf1
    cases f with
    | zero => omega
    | succ f' =>
      refine ⟨[], false, none, none, rfl, rfl, rfl, rfl, rfl, ?_, ?_⟩
      · intro blk hblk; exact Option.noConfusion hblk
      · intro _; exact ⟨rfl, fun _ => rfl⟩
  | cons c rest ih =>
    intro idx stale f hwf hnl hsz hfuel hf1
    simp only [wfBoxL, Bool.and_eq_true] at hwf
    obtain ⟨hwc, hwr⟩ := hwf
    rw [noLine_cons, Bool.and_eq_true] at hnl
    obtain ⟨hnc', hnr⟩ := hnl
    have hnc : isLineBox c = false := by
      rw [Bool.not_eq_true'] at hnc'; exact hnc'
    have hfc := hfuel c (List.mem_cons_self c rest)
    have h16 := pow16_ge_16 c
    simp only [List.length_cons] at hfc
    cases f with
    | zero => omega
    | succ f' =>
    have hf'1 : 1 ≤ f' := by omega
    have hfc' : 16 ^ sizeB c ≤ f' := by omega
    by_cases hbl : isBlockLevel c = true
    · refine ⟨[], false, some c, some (.node (idx + 1) none),
        by simp only [innerLoopF, hbl, if_true], rfl, rfl, rfl, rfl, ?_, ?_⟩
      · intro blk hblk
        rcases Option.some.inj hblk with rfl
        refine ⟨hwc, hnc, ⟨c, List.mem_cons_self c rest, le_rfl⟩,
          idx + 1, none, rfl, by omega, ?_⟩
        have hone : idx + 1 - idx = 1 := by omega
        rw [hone, show ((c :: rest).drop 1 = rest) from rfl, gList_none]
        have := gList_cons_ge c rest stale
        omega
      · intro h; exact Option.noConfusion h
    · rw [Bool.not_eq_true] at hbl
      have hrest_fuel : ∀ c' ∈ rest, 16 ^ sizeB c' + rest.length ≤ f' := by
        intro c' hm
        have := hfuel c' (List.mem_cons_of_mem c hm)
        simp only [List.length_cons] at this
        omega
      have hrest_sz : ∀ c' ∈ rest, sizeB c' ≤ n := fun c' hm =>
        hsz c' (List.mem_cons_of_mem c hm)
      by_cases hil : isInlineBox c = true
      · -- InlineBox child: recursion with the stale cursor
        have hwcc : noLine (children c) = true := by
          rw [wfBox_eq, hil, Bool.true_or, if_pos rfl, Bool.and_eq_true] at hwc
          exact hwc.1
        obtain ⟨nb, oblk1, ost1, heq1, hctor1, hwnb, hdnb, hcnb, hblk1, hnone1⟩ :=
          IHinner c (hsz c (List.mem_cons_self c rest)) hwc hwcc hbl stale f' hfc'
        have hnb_line : isLineBox nb = false := by
          rw [isLineBox_of_ctorIdx hctor1]; exact hnc
        cases oblk1 with
        | some blk =>
          obtain ⟨hwB, hnlB, hszB, st2, host2, hdec⟩ := hblk1 blk rfl
          subst host2
          refine ⟨[nb], !beqBox nb c, some blk, some (.node idx (some st2)),
            by simp only [innerLoopF, hbl, Bool.false_eq_true, if_false, hil,
              if_true, heq1], ?_, ?_, ?_, ?_, ?_, ?_⟩
          · simp [wfBoxL, hwnb]
          · simp [splitDoneL, hdnb]
          · simp [inlineCleanL, hcnb]
          · simp [noLine, hnb_line]
          · intro blk' hblk'
            rcases Option.some.inj hblk' with rfl
            refine ⟨hwB, hnlB,
              ⟨c, List.mem_cons_self c rest, Nat.le_of_lt hszB⟩,
              idx, some st2, rfl, le_rfl, ?_⟩
            have hzero : idx - idx = 0 := by omega
            rw [hzero, List.drop_zero]
            cases stale with
            | none =>
              rw [gStack, gStack] at hdec
              rw [gList, gList]
              omega
            | some s =>
              rw [gStack, gStack] at hdec
              rw [gList, gList]
              omega
          · intro h; exact Option.noConfusion h
        | none =>
          have host1 : ost1 = none := hnone1 rfl
          subst host1
          obtain ⟨acc2, ch2, oblk2, ost2, heq2, hw2, hd2, hc2, hn2, hblk2, hnone2⟩ :=
            ih (idx + 1) stale f' hwr hnr hrest_sz hrest_fuel hf'1
          refine ⟨nb :: acc2, (!beqBox nb c) || ch2, oblk2, ost2,
            by simp only [innerLoopF, hbl, Bool.false_eq_true, if_false, hil,
              if_true, heq1, heq2], ?_, ?_, ?_, ?_, ?_, ?_⟩
          · simp [wfBoxL, hwnb, hw2]
          · simp [splitDoneL, hdnb, hd2]
          · simp [inlineCleanL, hcnb, hc2]
          · simp [noLine] at hn2 ⊢
            exact ⟨by simp [hnb_line], hn2⟩
          · intro blk hb
            obtain ⟨hwB, hnlB, ⟨c', hc'm, hsz'⟩, i2, nst2, host, hge, hdecr⟩ :=
              hblk2 blk hb
            refine ⟨hwB, hnlB, ⟨c', List.mem_cons_of_mem c hc'm, hsz'⟩,
              i2, nst2, host, by omega, ?_⟩
            have hk : i2 - idx = (i2 - (idx + 1)) + 1 := by omega
            rw [hk, List.drop_succ_cons]
            have h1 := gList_le rest stale
            have h2 := gList_cons_ge c rest stale
            omega
          · intro h
            obtain ⟨host2', hch2⟩ := hnone2 h
            refine ⟨host2', ?_⟩
            intro hch
            rw [Bool.or_eq_false_iff, Bool.not_eq_false'] at hch
            rw [(beqBox_iff nb c).1 hch.1, hch2 hch.2]
      · rw [Bool.not_eq_true] at hil
        obtain ⟨acc2, ch2, oblk2, ost2, heq2, hw2, hd2, hc2, hn2, hblk2, hnone2⟩ :=
          ih (idx + 1) stale f' hwr hnr hrest_sz hrest_fuel hf'1
        by_cases hp : isParentBox c = true
        · -- inline-block (or other non-inline parent): full recursion
          obtain ⟨r, heqr, hwr2, hdr2, hctr2⟩ :=
            IHbii c (hsz c (List.mem_cons_self c rest)) hwc hnc f' hfc'
          have hr_line : isLineBox r = false := by
            rw [isLineBox_of_ctorIdx hctr2]; exact hnc
          have hr_clean : inlineCleanB r = true := by
            refine inlineCleanB_of_neither ?_ ?_
            · rw [isBlockLevel_of_ctorIdx hctr2]; exact hbl
            · rw [isInlineBox_of_ctorIdx hctr2]; exact hil
          refine ⟨r :: acc2, (!beqBox r c) || ch2, oblk2, ost2,
            by simp only [innerLoopF, hbl, Bool.false_eq_true, if_false, hil,
              hp, if_true, heqr, heq2], ?_, ?_, ?_, ?_, ?_, ?_⟩
          · simp [wfBoxL, hwr2, hw2]
          · simp [splitDoneL, hdr2, hd2]
          · simp [inlineCleanL, hr_clean, hc2]
          · simp [noLine] at hn2 ⊢
            exact ⟨by simp [hr_line], hn2⟩
          · intro blk hb
            obtain ⟨hwB, hnlB, ⟨c', hc'm, hsz'⟩, i2, nst2, host, hge, hdecr⟩ :=
              hblk2 blk hb
            refine ⟨hwB, hnlB, ⟨c', List.mem_cons_of_mem c hc'm, hsz'⟩,
              i2, nst2, host, by omega, ?_⟩
            have hk : i2 - idx = (i2 - (idx + 1)) + 1 := by omega
            rw [hk, List.drop_succ_cons]
            have h1 := gList_le rest stale
            have h2 := gList_cons_ge c rest stale
            omega
          · intro h
            obtain ⟨host2', hch2⟩ := hnone2 h
            refine ⟨host2', ?_⟩
            intro hch
            rw [Bool.or_eq_false_iff, Bool.not_eq_false'] at hch
            rw [(beqBox_iff r c).1 hch.1, hch2 hch.2]
        · -- leaf child: kept as is
          rw [Bool.not_eq_true] at hp
          refine ⟨c :: acc2, (!beqBox c c) || ch2, oblk2, ost2,
            by simp only [innerLoopF, hbl, Bool.false_eq_true, if_false, hil,
              hp, if_true, heq2], ?_, ?_, ?_, ?_, ?_, ?_⟩
          · simp [wfBoxL, hwc, hw2]
          · simp [splitDoneL, splitDoneB_leaf_or hp, hd2]
          · simp [inlineCleanL, inlineCleanB_leaf hp, hc2]
          · simp [noLine] at hn2 ⊢
            exact ⟨by simp [hnc], hn2⟩
          · intro blk hb
            obtain ⟨hwB, hnlB, ⟨c', hc'm, hsz'⟩, i2, nst2, host, hge, hdecr⟩ :=
              hblk2 blk hb
            refine ⟨hwB, hnlB, ⟨c', List.mem_cons_of_mem c hc'm, hsz'⟩,
              i2, nst2, host, by omega, ?_⟩
            have hk : i2 - idx = (i2 - (idx + 1)) + 1 := by omega
            rw [hk, List.drop_succ_cons]
            have h1 := gList_le rest stale
            have h2 := gList_cons_ge c rest stale
            omega
          · intro h
            obtain ⟨host2', hch2⟩ := hnone2 h
            refine ⟨host2', ?_⟩
            intro hch
            rw [Bool.or_eq_false_iff, Bool.not_eq_false'] at hch
            rw [hch2 hch.2]

/-- The four preservation facts for a box rebuilt from processed children. -/
theorem mk_withChildren {c : Box} (hnb : isBlockLevel c = false)
    (hpc : isParentBox c = true) {acc : List Box}
    (hw : wfBoxL acc = true) (hd : splitDoneL acc = true)
    (hc : inlineCleanL acc = true) (hn : noLine acc = true) :
    ctorIdx (withChildren c acc) = ctorIdx c ∧
    wfBoxB (withChildren c acc) = true ∧
    splitDoneB (withChildren c acc) = true ∧
    inlineCleanB (withChildren c acc) = true := by
  have hch := children_withChildren c acc hpc
  refine ⟨ctorIdx_withChildren c acc, ?_, ?_,
    inlineCleanB_withChildren_of hnb hc⟩
  · rw [wfBox_eq, hch, Bool.and_eq_true]
    refine ⟨?_, hw⟩
    by_cases hil : (isInlineBox (withChildren c acc) ||
        isLineBox (withChildren c acc)) = true
    · rw [if_pos hil]; exact hn
    · rw [Bool.not_eq_true] at hil
      rw [hil]
      simp only [Bool.false_eq_true, if_false]
      refine lineOk_of_noLine ?_
      rw [hch]; exact hn
  · rw [splitDone_eq, hch, Bool.and_eq_true]
    refine ⟨?_, hd⟩
    by_cases hl : isLineBox (withChildren c acc) = true
    · rw [if_pos hl]; exact hc
    · rw [Bool.not_eq_true] at hl; rw [hl]; simp

/-- Core adequacy of `_inner_block_in_inline`'s scan once the cursor has
been unpacked into a skip index and a (stale) nested cursor. -/
theorem innerCoreA (n : Nat)
    (IHbii : ∀ c : Box, sizeB c ≤ n → BiiP c)
    (IHinner : ∀ c : Box, sizeB c ≤ n → InnerP c)
    (c : Box) (hsz : sizeB c ≤ n + 1) (hwf : wfBoxB c = true)
    (hnlc : noLine (children c) = true)
    (skip : Nat) (stale : Option SkipStack) (f' : Nat)
    (hf : 16 ^ sizeB c ≤ f' + 1) :
    ∃ acc changed oblk ost,
      innerLoopF f' stale ((children c).drop skip) skip =
        .ok (acc, changed, oblk, ost) ∧
      wfBoxL acc = true ∧ splitDoneL acc = true ∧ inlineCleanL acc = true ∧
      noLine acc = true ∧
      (∀ blk, oblk = some blk → wfBoxB blk = true ∧ isLineBox blk = false ∧
        sizeB blk < sizeB c ∧ isParentBox c = true ∧
        ∃ i2 nst2, ost = some (.node i2 nst2) ∧ skip ≤ i2 ∧
          gCursor (children c) (.node i2 nst2) <
            1 + gList ((children c).drop skip) stale) ∧
      (oblk = none → ost = none ∧
        (changed = false → acc = (children c).drop skip)) := by
  have h16 := pow16_ge_16 c
  have hcs_wf : wfBoxL ((children c).drop skip) = true :=
    wfL_drop (wf_children hwf) skip
  have hcs_nl : noLine ((children c).drop skip) = true := noLine_drop hnlc skip
  have hcs_sz : ∀ x ∈ (children c).drop skip, sizeB x ≤ n := by
    intro x hm
    have := sizeB_child_lt (List.mem_of_mem_drop hm)
    omega
  have hcs_fuel : ∀ x ∈ (children c).drop skip,
      16 ^ sizeB x + ((children c).drop skip).length ≤ f' := by
    intro x hm
    have hx := sizeB_child_lt (List.mem_of_mem_drop hm)
    have hlen := children_length_lt c
    have hdl : ((children c).drop skip).length ≤ (children c).length := by
      rw [List.length_drop]; omega
    have := @arith_inner_child (sizeB c) (sizeB x)
      (((children c).drop skip).length) hx (by omega)
    omega
  have hf'1 : 1 ≤ f' := by omega
  obtain ⟨acc, changed, oblk, ost, heq, hwacc, hdacc, hcacc, hnacc, hblk, hnone⟩ :=
    innerLoopA n IHbii IHinner ((children c).drop skip) skip stale f'
      hcs_wf hcs_nl hcs_sz hcs_fuel hf'1
  refine ⟨acc, changed, oblk, ost, heq, hwacc, hdacc, hcacc, hnacc, ?_, hnone⟩
  intro blk hb
  obtain ⟨hwB, hnlB, ⟨x, hxm, hxle⟩, i2, nst2, host, hige, hdec⟩ := hblk blk hb
  have hxlt := sizeB_child_lt (List.mem_of_mem_drop hxm)
  have hpc : isParentBox c = true := by
    refine children_ne_nil_parent ?_
    intro hnil
    rw [hnil, List.drop_nil] at hxm
    exact absurd hxm (List.not_mem_nil x)
  refine ⟨hwB, hnlB, by omega, hpc, i2, nst2, host, hige, ?_⟩
  rw [gCursor]
  have hdrop : (children c).drop i2 = ((children c).drop skip).drop (i2 - skip) := by
    rw [List.drop_drop]
    congr 1
    omega
  rw [hdrop]
  omega

/-- Adequacy of `_inner_block_in_inline` at one more size level, given the
recursion hypotheses for strictly smaller boxes. -/
theorem innerA (n : Nat)
    (IHbii : ∀ c : Box, sizeB c ≤ n → BiiP c)
    (IHinner : ∀ c : Box, sizeB c ≤ n → InnerP c) :
    ∀ c : Box, sizeB c ≤ n + 1 → InnerP c := by
  intro c hsz hwf hnlc hnb st f hf
  have h16 := pow16_ge_16 c
  cases f with
  | zero => omega
  | succ f' =>
  have hcl_of : ∀ acc : List Box, acc = children c →
      splitDoneL acc = true → inlineCleanL acc = true →
      splitDoneB c = true ∧ inlineCleanB c = true := by
    intro acc hacc hd hc2
    subst hacc
    constructor
    · rw [splitDone_eq, Bool.and_eq_true]
      refine ⟨?_, hd⟩
      by_cases hl : isLineBox c = true
      · rw [if_pos hl]; exact hc2
      · rw [Bool.not_eq_true] at hl; rw [hl]; simp
    · rw [show c = withChildren c (children c) from (withChildren_self c).symm]
      exact inlineCleanB_withChildren_of hnb hc2
  have hleaf : isParentBox c = false →
      ∀ g st2, 1 ≤ g → innerLoopF g st2 ([] : List Box) 0 =
        .ok ([], false, none, none) := by
    intro _ g st2 hg
    cases g with
    | zero => omega
    | succ g' => rfl
  cases st with
  | none =>
    obtain ⟨acc, changed, oblk, ost, heq, hwacc, hdacc, hcacc, hnacc, hblk, hnone⟩ :=
      innerCoreA n IHbii IHinner c hsz hwf hnlc 0 none f' hf
    simp only [List.drop_zero] at heq
    cases oblk with
    | some blk =>
      obtain ⟨hwB, hnlB, hszB, hpc, i2, nst2, host, _, hdec⟩ := hblk blk rfl
      subst host
      obtain ⟨hct, hwN, hdN, hcN⟩ :=
        mk_withChildren hnb hpc hwacc hdacc hcacc hnacc
      refine ⟨withChildren c acc, some blk, some (.node i2 nst2), ?_, hct, hwN,
        hdN, hcN, ?_, ?_⟩
      · simp only [innerF, List.drop_zero, heq]
      · intro blk' hb'
        rcases Option.some.inj hb' with rfl
        refine ⟨hwB, hnlB, hszB, .node i2 nst2, rfl, ?_⟩
        rw [gStack, gStack]
        simp only [List.drop_zero] at hdec
        rw [gList_none] at hdec
        rw [sizeB_eq c]
        omega
      · intro h; exact Option.noConfusion h
    | none =>
      obtain ⟨host, hid⟩ := hnone rfl
      subst host
      simp only [List.drop_zero] at hid
      by_cases hcond : (changed || decide ((0 : Nat) ≠ 0)) = true
      · have hchg : changed = true := by
          simpa using hcond
        by_cases hpc : isParentBox c = true
        · obtain ⟨hct, hwN, hdN, hcN⟩ :=
            mk_withChildren hnb hpc hwacc hdacc hcacc hnacc
          refine ⟨withChildren c acc, none, none, ?_, hct, hwN, hdN, hcN, ?_, ?_⟩
          · simp only [innerF, List.drop_zero, heq, hchg, Bool.true_or, if_true]
          · intro blk hb; exact Option.noConfusion hb
          · intro _; exact rfl
        · exfalso
          rw [Bool.not_eq_true] at hpc
          have hchn : children c = [] := by
            cases c <;> simp_all [isParentBox, children]
          rw [hchn] at heq
          rw [hleaf hpc f' none (by omega)] at heq
          have := Except.ok.inj heq
          have hch : changed = false := by
            have := congrArg (fun t : List Box × Bool × Option Box ×
              Option SkipStack => t.2.1) this
            simpa using this.symm
          rw [hch] at hchg
          exact Bool.noConfusion hchg
      · rw [Bool.not_eq_true, Bool.or_eq_false_iff] at hcond
        have hacc_eq : acc = children c := hid hcond.1
        obtain ⟨hdc, hcc⟩ := hcl_of acc hacc_eq hdacc hcacc
        refine ⟨c, none, none, ?_, rfl, hwf, hdc, hcc, ?_, ?_⟩
        · simp only [innerF, List.drop_zero, heq, hcond.1, Bool.false_or]
          simp
        · intro blk hb; exact Option.noConfusion hb
        · intro _; exact rfl
  | some s =>
    cases s with
    | node i0 nst0 =>
    obtain ⟨acc, changed, oblk, ost, heq, hwacc, hdacc, hcacc, hnacc, hblk, hnone⟩ :=
      innerCoreA n IHbii IHinner c hsz hwf hnlc i0 nst0 f' hf
    cases oblk with
    | some blk =>
      obtain ⟨hwB, hnlB, hszB, hpc, i2, nst2, host, _, hdec⟩ := hblk blk rfl
      subst host
      obtain ⟨hct, hwN, hdN, hcN⟩ :=
        mk_withChildren hnb hpc hwacc hdacc hcacc hnacc
      refine ⟨withChildren c acc, some blk, some (.node i2 nst2), ?_, hct, hwN,
        hdN, hcN, ?_, ?_⟩
      · simp only [innerF, heq]
      · intro blk' hb'
        rcases Option.some.inj hb' with rfl
        refine ⟨hwB, hnlB, hszB, .node i2 nst2, rfl, ?_⟩
        rw [gStack, gStack]
        simp only [gCursor] at hdec ⊢
        omega
      · intro h; exact Option.noConfusion h
    | none =>
      obtain ⟨host, hid⟩ := hnone rfl
      subst host
      by_cases hi0 : i0 = 0
      · subst hi0
        simp only [List.drop_zero] at heq hid
        by_cases hchg : changed = true
        · by_cases hpc : isParentBox c = true
          · obtain ⟨hct, hwN, hdN, hcN⟩ :=
              mk_withChildren hnb hpc hwacc hdacc hcacc hnacc
            refine ⟨withChildren c acc, none, none, ?_, hct, hwN, hdN, hcN,
              ?_, ?_⟩
            · simp only [innerF, List.drop_zero, heq, hchg, Bool.true_or,
                if_true]
            · intro blk hb; exact Option.noConfusion hb
            · intro _; exact rfl
          · exfalso
            rw [Bool.not_eq_true] at hpc
            have hchn : children c = [] := by
              cases c <;> simp_all [isParentBox, children]
            rw [hchn] at heq
            rw [hleaf hpc f' nst0 (by omega)] at heq
            have := Except.ok.inj heq
            have hch : changed = false := by
              have := congrArg (fun t : List Box × Bool × Option Box ×
                Option SkipStack => t.2.1) this
              simpa using this.symm
            rw [hch] at hchg
            exact Bool.noConfusion hchg
        · rw [Bool.not_eq_true] at hchg
          have hacc_eq : acc = children c := hid hchg
          obtain ⟨hdc, hcc⟩ := hcl_of acc hacc_eq hdacc hcacc
          refine ⟨c, none, none, ?_, rfl, hwf, hdc, hcc, ?_, ?_⟩
          · simp only [innerF, List.drop_zero, heq, hchg, Bool.false_or]
            simp
          · intro blk hb; exact Option.noConfusion hb
          · intro _; exact rfl
      · -- skip nonzero: the box is always rebuilt
        by_cases hpc : isParentBox c = true
        · obtain ⟨hct, hwN, hdN, hcN⟩ :=
            mk_withChildren hnb hpc hwacc hdacc hcacc hnacc
          refine ⟨withChildren c acc, none, none, ?_, hct, hwN, hdN, hcN, ?_, ?_⟩
          · simp only [innerF, heq]
            have : decide (i0 ≠ 0) = true := by simpa using hi0
            simp [this]
          · intro blk hb; exact Option.noConfusion hb
          · intro _; exact rfl
        · -- leaf with nonzero skip: acc is empty, the rebuilt box is itself
          rw [Bool.not_eq_true] at hpc
          have hchn : children c = [] := by
            cases c <;> simp_all [isParentBox, children]
          rw [hchn, List.drop_nil] at heq
          have hloop0 : ∀ g st2 i, 1 ≤ g → innerLoopF g st2 ([] : List Box) i =
              .ok ([], false, none, none) := by
            intro g st2 i hg
            cases g with
            | zero => omega
            | succ g' => rfl
          rw [hloop0 f' nst0 i0 (by omega)] at heq
          have hinj := Except.ok.inj heq
          have hacc0 : acc = [] := by
            have := congrArg (fun t : List Box × Bool × Option Box ×
              Option SkipStack => t.1) hinj
            simpa using this.symm
          refine ⟨c, none, none, ?_, rfl, hwf, splitDoneB_leaf_or hpc,
            inlineCleanB_leaf hpc, ?_, ?_⟩
          · simp only [innerF, hchn, List.drop_nil,
              hloop0 f' nst0 i0 (by omega : 1 ≤ f')]
            have hwcl : withChildren c [] = c := withChildren_leaf hpc []
            by_cases hd : decide (i0 ≠ 0) = true
            · simp [hd, hwcl]
            · simp at hd
              exact absurd hd hi0
          · intro blk hb; exact Option.noConfusion hb
          · intro _; exact rfl

/-- Adequacy of the splitter's `while 1` loop at one more size level:
given recursion hypotheses for `block_in_inline` on smaller boxes and
`_inner_block_in_inline` at this level, the loop terminates with
well-formed, fully split pieces.  Induction on the remaining-work
measure `gStack`. -/
theorem splitA (n : Nat)
    (IHbii : ∀ c : Box, sizeB c ≤ n → BiiP c)
    (hInner : ∀ c : Box, sizeB c ≤ n + 1 → InnerP c) :
    ∀ c : Box, sizeB c ≤ n + 1 → SplitP c := by
  have main : ∀ (g : Nat) (c : Box), sizeB c ≤ n + 1 → wfBoxB c = true →
      noLine (children c) = true → isBlockLevel c = false →
      ∀ (st : Option SkipStack) (f : Nat), gStack c st ≤ g →
      gStack c st + 16 ^ sizeB c ≤ f → SplitConc c st f := by
    intro g
    induction g with
    | zero =>
      intro c _ _ _ _ st f hg _
      have := gStack_pos c st
      omega
    | succ g ih =>
      intro c hsz hwf hnlc hnb st f hg hf
      have hgp := gStack_pos c st
      have hpp := pow16_pos (sizeB c)
      cases f with
      | zero => omega
      | succ f' =>
      obtain ⟨nb, oblk, ost, heqI, hctor, hwnb, hdnb, hcnb, hblk, hnone⟩ :=
        hInner c hsz hwf hnlc hnb st f' (by omega)
      cases oblk with
      | none =>
        refine ⟨[], nb, ?_, ?_, hctor, hwnb, hdnb⟩
        · simp only [splitLoopF, heqI]
        · intro p hp
          exact absurd hp (List.not_mem_nil p)
      | some blk =>
        obtain ⟨hwB, hnlB, hszB, st2, host2, hdec⟩ := hblk blk rfl
        subst host2
        obtain ⟨bb, heqB, hwbb, hdbb, hctbb⟩ :=
          IHbii blk (by omega) hwB hnlB f'
            (le_trans (pow16_mono (Nat.le_of_lt hszB)) (by omega))
        have hbb_line : isLineBox bb = false := by
          rw [isLineBox_of_ctorIdx hctbb]; exact hnlB
        obtain ⟨pairs, lastLine, heqS, hpairs, hctL, hwL, hdL⟩ :=
          ih c hsz hwf hnlc hnb (some st2) f' (by omega) (by omega)
        refine ⟨(nb, bb) :: pairs, lastLine, ?_, ?_, hctL, hwL, hdL⟩
        · simp only [splitLoopF, heqI, heqB, heqS]
        · intro p hp
          rcases List.mem_cons.1 hp with rfl | hp2
          · exact ⟨hctor, hwnb, hdnb, hwbb, hdbb, hbb_line⟩
          · exact hpairs p hp2
  intro c hsz hwf hnlc hnb st f hf
  exact main (gStack c st) c hsz hwf hnlc hnb st f le_rfl hf

theorem noLine_append (xs ys : List Box) :
    noLine (xs ++ ys) = (noLine xs && noLine ys) := by
  simp [noLine, List.all_append]

theorem isBlockLevel_of_line {c : Box} (h : isLineBox c = true) :
    isBlockLevel c = false := by
  cases c <;> simp_all [isLineBox, isBlockLevel]

theorem wf_anon_single {x : Box} (hw : wfBoxB x = true) :
    wfBoxB (Box.AnonymousBlockBox [x]) = true := by
  rw [wfBox_eq]
  have hok : lineOkAt (Box.AnonymousBlockBox [x]) = true := by
    rw [lineOkAt]
    cases hl : isLineBox x <;>
      simp [children, isBlockContainer, hl]
  simp [children, isInlineBox, isLineBox, hok, wfBoxL, hw]

theorem done_anon_single {x : Box} (hd : splitDoneB x = true) :
    splitDoneB (Box.AnonymousBlockBox [x]) = true := by
  simp [splitDoneB, splitDoneL, hd]

/-- The interleaving of collected `(line, block)` pairs is well-formed,
fully split and line-free when each piece is. -/
theorem anonInterleave_props (c0 : Box) : ∀ pairs : List (Box × Box),
    (∀ p ∈ pairs, ctorIdx p.1 = ctorIdx c0 ∧ wfBoxB p.1 = true ∧
      splitDoneB p.1 = true ∧ wfBoxB p.2 = true ∧ splitDoneB p.2 = true ∧
      isLineBox p.2 = false) →
    wfBoxL (anonInterleave pairs) = true ∧
    splitDoneL (anonInterleave pairs) = true ∧
    noLine (anonInterleave pairs) = true
  | [], _ => ⟨rfl, rfl, rfl⟩
  | p :: ps, h => by
    obtain ⟨_, hw1, hd1, hw2, hd2, hnl2⟩ := h p (List.mem_cons_self p ps)
    obtain ⟨ihw, ihd, ihn⟩ := anonInterleave_props c0 ps
      (fun q hq => h q (List.mem_cons_of_mem p hq))
    refine ⟨?_, ?_, ?_⟩
    · simp [anonInterleave, wfBoxL, wf_anon_single hw1, hw2, ihw]
    · simp [anonInterleave, splitDoneL, done_anon_single hd1, hd2, ihd]
    · simp [anonInterleave, noLine] at ihn ⊢
      exact ⟨by simp [isLineBox], by simp [hnl2], ihn⟩

/-- Adequacy of the child loop of `block_in_inline`: on well-formed
children (any `LineBox` child being an only child, with the child count
passed as `ncount`) it succeeds; the new children are well-formed and
fully split; line boxes appear in the output only as the unchanged single
line of a line-only input; an unchanged flag means the children were
returned verbatim. -/
theorem biiKidsA (n : Nat)
    (IHbii : ∀ c : Box, sizeB c ≤ n → BiiP c)
    (IHsplit : ∀ c : Box, sizeB c ≤ n → SplitP c) :
    ∀ (cs : List Box) (ncount : Nat) (f : Nat),
      wfBoxL cs = true →
      (∀ c ∈ cs, sizeB c ≤ n) →
      (∀ c ∈ cs, isLineBox c = true → cs = [c] ∧ ncount = 1) →
      (∀ c ∈ cs, sizeB c + 16 ^ sizeB c + cs.length ≤ f) → 1 ≤ f →
      ∃ newChildren changed,
        biiKidsF f ncount cs = .ok (newChildren, changed) ∧
        wfBoxL newChildren = true ∧ splitDoneL newChildren = true ∧
        (noLine cs = true → noLine newChildren = true) ∧
        (noLine newChildren = true ∨
          ∃ l, newChildren = [l] ∧ isLineBox l = true ∧
            ∃ l0, cs = [l0] ∧ isLineBox l0 = true) ∧
        (changed = false → newChildren = cs) := by
  intro cs
  induction cs with
  | nil =>
    intro ncount f _ _ _ _ hf1
    cases f with
    | zero => omega
    | succ f' =>
      exact ⟨[], false, rfl, rfl, rfl, fun _ => rfl, Or.inl rfl, fun _ => rfl⟩
  | cons child rest ih =>
    intro ncount f hwf hsz hline hfuel hf1
    simp only [wfBoxL, Bool.and_eq_true] at hwf
    obtain ⟨hwc, hwr⟩ := hwf
    have hfc := hfuel child (List.mem_cons_self child rest)
    have h16 := pow16_ge_16 child
    have hszc := sizeB_pos child
    simp only [List.length_cons] at hfc
    cases f with
    | zero => omega
    | succ f' =>
    have hf'1 : 1 ≤ f' := by omega
    by_cases hl : isLineBox child = true
    · -- single line child, split it
      obtain ⟨hcseq, hnc1⟩ := hline child (List.mem_cons_self child rest) hl
      have hrest_nil : rest = [] := by
        have := List.cons.injEq child rest child [] ▸ hcseq
        simpa using (List.cons.inj hcseq).2
      subst hrest_nil
      subst hnc1
      have hnlc : noLine (children child) = true := by
        rw [wfBox_eq, hl, Bool.or_true, if_pos rfl, Bool.and_eq_true] at hwc
        exact hwc.1
      obtain ⟨pairs, lastLine, heqS, hpairs, hctL, hwL, hdL⟩ :=
        IHsplit child (hsz child (List.mem_cons_self child [])) hwc hnlc
          (isBlockLevel_of_line hl) none f' (by rw [gStack]; omega)
      have hlastLine : isLineBox lastLine = true := by
        rw [isLineBox_of_ctorIdx hctL]; exact hl
      cases f' with
      | zero => omega
      | succ f'' =>
      have heq : biiKidsF (f'' + 1 + 1) 1 [child] =
          .ok (anonInterleave pairs ++
            [if pairs.isEmpty then lastLine
             else .AnonymousBlockBox [lastLine]],
            !beqBox (if pairs.isEmpty then lastLine
              else .AnonymousBlockBox [lastLine]) child) := by
        simp only [biiKidsF, hl, if_true, ne_eq, not_true_eq_false,
          Bool.false_eq_true, if_false, heqS, Bool.or_false]
      cases hpe : pairs with
      | nil =>
        rw [hpe] at heq
        simp only [List.isEmpty_nil, if_true, anonInterleave,
          List.nil_append] at heq
        refine ⟨[lastLine], !beqBox lastLine child, heq, ?_, ?_, ?_, ?_, ?_⟩
        · simp [wfBoxL, hwL]
        · simp [splitDoneL, hdL]
        · intro hno
          rw [noLine] at hno
          simp [hl] at hno
        · exact Or.inr ⟨lastLine, rfl, hlastLine, child, rfl, hl⟩
        · intro hch
          rw [Bool.not_eq_false'] at hch
          rw [(beqBox_iff lastLine child).1 hch]
      | cons p ps =>
        rw [hpe] at heq hpairs
        simp only [List.isEmpty_cons, Bool.false_eq_true, if_false] at heq
        obtain ⟨ihw, ihd, ihn⟩ := anonInterleave_props child (p :: ps) hpairs
        refine ⟨anonInterleave (p :: ps) ++ [.AnonymousBlockBox [lastLine]],
          !beqBox (.AnonymousBlockBox [lastLine]) child, heq,
          ?_, ?_, ?_, ?_, ?_⟩
        · rw [wfBoxL_append, Bool.and_eq_true]
          exact ⟨ihw, by simp [wfBoxL, wf_anon_single hwL]⟩
        · rw [splitDoneL_append, Bool.and_eq_true]
          exact ⟨ihd, by simp [splitDoneL, done_anon_single hdL]⟩
        · intro hno
          rw [noLine] at hno
          simp [hl] at hno
        · left
          rw [noLine_append, Bool.and_eq_true]
          refine ⟨ihn, ?_⟩
          simp [noLine, isLineBox]
        · intro hch
          rw [Bool.not_eq_false'] at hch
          have := (beqBox_iff _ _).1 hch
          exfalso
          have : isLineBox (Box.AnonymousBlockBox [lastLine]) = true := by
            rw [this]; exact hl
          simp [isLineBox] at this
    · -- non-line child: plain recursion
      rw [Bool.not_eq_true] at hl
      have hrest_line : ∀ c ∈ rest, isLineBox c = true → rest = [c] ∧
          ncount = 1 := by
        intro c hm hlc
        obtain ⟨hcs, _⟩ := hline c (List.mem_cons_of_mem child hm) hlc
        have h1 : child = c ∧ rest = [] := by
          constructor
          · exact (List.cons.inj hcs).1
          · exact (List.cons.inj hcs).2
        rw [h1.2] at hm
        exact absurd hm (List.not_mem_nil c)
      have hrest_fuel : ∀ c ∈ rest,
          sizeB c + 16 ^ sizeB c + rest.length ≤ f' := by
        intro c hm
        have := hfuel c (List.mem_cons_of_mem child hm)
        simp only [List.length_cons] at this
        omega
      obtain ⟨tailChildren, changedRest, heqR, hwT, hdT, hnlT, hdisjT, hchT⟩ :=
        ih ncount f' hwr (fun c hm => hsz c (List.mem_cons_of_mem child hm))
          hrest_line hrest_fuel hf'1
      obtain ⟨nc, heqC, hwnc, hdnc, hctnc⟩ :=
        IHbii child (hsz child (List.mem_cons_self child rest)) hwc hl f'
          (by omega)
      have hnc_line : isLineBox nc = false := by
        rw [isLineBox_of_ctorIdx hctnc]; exact hl
      have hTail_noline : noLine tailChildren = true := by
        rcases hdisjT with h | ⟨l, _, _, l0, hr, hl0⟩
        · exact h
        · exfalso
          obtain ⟨hcs, _⟩ := hline l0
            (List.mem_cons_of_mem child (hr ▸ List.mem_cons_self l0 [])) hl0
          have : rest = [] := (List.cons.inj hcs).2
          rw [this] at hr
          exact List.noConfusion hr
      refine ⟨nc :: tailChildren, (!beqBox nc child) || changedRest,
        ?_, ?_, ?_, ?_, ?_, ?_⟩
      · simp only [biiKidsF, hl, Bool.false_eq_true, if_false, heqC, heqR,
          List.nil_append]
      · simp [wfBoxL, hwnc, hwT]
      · simp [splitDoneL, hdnc, hdT]
      · intro _
        simp [noLine] at hTail_noline ⊢
        exact ⟨by simp [hnc_line], hTail_noline⟩
      · left
        simp [noLine] at hTail_noline ⊢
        exact ⟨by simp [hnc_line], hTail_noline⟩
      · intro hch
        rw [Bool.or_eq_false_iff, Bool.not_eq_false'] at hch
        rw [(beqBox_iff nc child).1 hch.1, hchT hch.2]

/-- Adequacy of `block_in_inline` at one more size level, given the
recursion hypotheses for strictly smaller boxes. -/
theorem biiA (n : Nat)
    (IHbii : ∀ c : Box, sizeB c ≤ n → BiiP c)
    (IHsplit : ∀ c : Box, sizeB c ≤ n → SplitP c) :
    ∀ b : Box, sizeB b ≤ n + 1 → BiiP b := by
  intro b hsz hwf hnl f hf
  have h16 := pow16_ge_16 b
  cases f with
  | zero => omega
  | succ f' =>
  by_cases hp : isParentBox b = true
  · have hlen := children_length_lt b
    obtain ⟨newChildren, changed, heqK, hwN, hdN, hnlN, hdisj, hchN⟩ :=
      biiKidsA n IHbii IHsplit (children b) (children b).length f'
        (wf_children hwf)
        (fun c hm => by have := sizeB_child_lt hm; omega)
        (fun c hm hlc => by
          obtain ⟨hcs, _⟩ := wf_singleton_line hwf hm hlc
          exact ⟨hcs, by rw [hcs]; rfl⟩)
        (fun c hm => by
          have h1 := sizeB_child_lt hm
          have := @arith_bii_child (sizeB b) (sizeB c)
            ((children b).length) h1 hlen
          omega)
        (by omega)
    cases hch : changed
    · rw [hch] at heqK hchN
      have hcs_eq : newChildren = children b := hchN rfl
      refine ⟨b, ?_, hwf, ?_, rfl⟩
      · simp [block_in_inlineF, hp, heqK]
      · rw [splitDone_eq, hnl, Bool.and_eq_true]
        simp only [Bool.false_eq_true, if_false]
        exact ⟨by simp, hcs_eq ▸ hdN⟩
    · rw [hch] at heqK
      have hchw := children_withChildren b newChildren hp
      have hctw := ctorIdx_withChildren b newChildren
      have hlinew : isLineBox (withChildren b newChildren) = isLineBox b :=
        isLineBox_withChildren b newChildren
      refine ⟨withChildren b newChildren, ?_, ?_, ?_, hctw⟩
      · simp [block_in_inlineF, hp, heqK]
      · rw [wfBox_eq, hchw, Bool.and_eq_true]
        refine ⟨?_, hwN⟩
        by_cases hil : (isInlineBox (withChildren b newChildren) ||
            isLineBox (withChildren b newChildren)) = true
        · rw [if_pos hil]
          have hb_il : (isInlineBox b || isLineBox b) = true := by
            rw [← isInlineBox_of_ctorIdx hctw, ← hlinew]
            exact hil
          refine hnlN ?_
          rw [wfBox_eq, if_pos hb_il, Bool.and_eq_true] at hwf
          exact hwf.1
        · rw [Bool.not_eq_true] at hil
          rw [hil]
          simp only [Bool.false_eq_true, if_false]
          rw [lineOkAt, hchw]
          by_cases hany : newChildren.any isLineBox = true
          · rw [if_pos hany]
            rcases hdisj with hno | ⟨l, hNl, hll, l0, hcs0, hl0⟩
            · exfalso
              obtain ⟨x, hx, hlx⟩ := List.any_eq_true.1 hany
              rw [noLine, List.all_eq_true] at hno
              have := hno x hx
              simp [hlx] at this
            · have hbc : isBlockContainer b = true :=
                (wf_singleton_line hwf
                  (by rw [hcs0]; exact List.mem_singleton.2 rfl) hl0).2
              rw [isBlockContainer_withChildren, hbc, hNl]
              simp
          · rw [Bool.not_eq_true] at hany
            rw [hany]
            simp
      · rw [splitDone_eq, hchw, Bool.and_eq_true]
        refine ⟨?_, hdN⟩
        rw [hlinew, hnl]
        simp
  · rw [Bool.not_eq_true] at hp
    refine ⟨b, ?_, hwf, splitDoneB_leaf_or hp, rfl⟩
    simp [block_in_inlineF, hp]

/-- The three adequacy properties, packaged by size and proved together by
plain induction. -/
theorem biiPack : ∀ n : Nat,
    (∀ c : Box, sizeB c ≤ n → InnerP c) ∧
    (∀ c : Box, sizeB c ≤ n → SplitP c) ∧
    (∀ b : Box, sizeB b ≤ n → BiiP b) := by
  intro n
  induction n with
  | zero =>
    refine ⟨?_, ?_, ?_⟩ <;>
      exact fun c hsz => absurd hsz (by have := sizeB_pos c; omega)
  | succ n ih =>
    obtain ⟨ihI, ihS, ihB⟩ := ih
    have hInner : ∀ c : Box, sizeB c ≤ n + 1 → InnerP c := innerA n ihB ihI
    have hSplit : ∀ c : Box, sizeB c ≤ n + 1 → SplitP c :=
      splitA n ihB hInner
    have hBii : ∀ b : Box, sizeB b ≤ n + 1 → BiiP b := biiA n ihB ihS
    exact ⟨hInner, hSplit, hBii⟩

theorem blockLevel_not_clean {c : Box} (h : inlineCleanB c = true) :
    isBlockLevel c = false := by
  cases c <;> simp_all [inlineCleanB, isBlockLevel]

theorem inline_clean_children {c : Box} (hil : isInlineBox c = true)
    (h : inlineCleanB c = true) : inlineCleanL (children c) = true := by
  cases c <;> simp_all [isInlineBox, inlineCleanB, children]

theorem inline_done_children {c : Box} (hil : isInlineBox c = true)
    (h : splitDoneB c = true) : splitDoneL (children c) = true := by
  cases c <;> simp_all [isInlineBox, splitDoneB, children]

theorem line_clean_children {c : Box} (hl : isLineBox c = true)
    (h : splitDoneB c = true) :
    inlineCleanL (children c) = true ∧ splitDoneL (children c) = true := by
  cases c <;> simp_all [isLineBox, splitDoneB, children]

/-- Identity of the scan loop on clean, fully split, line-free children:
every child passes through unchanged and no block is found. -/
theorem innerLoopID (n : Nat)
    (IHbii : ∀ c : Box, sizeB c ≤ n → BiiIDP c)
    (IHinner : ∀ c : Box, sizeB c ≤ n → InnerIDP c) :
    ∀ (cs : List Box) (idx f : Nat),
      wfBoxL cs = true → noLine cs = true → inlineCleanL cs = true →
      splitDoneL cs = true → (∀ c ∈ cs, sizeB c ≤ n) →
      (∀ c ∈ cs, 16 ^ sizeB c + cs.length ≤ f) → 1 ≤ f →
      innerLoopF f none cs idx = .ok (cs, false, none, none) := by
  intro cs
  induction cs with
  | nil =>
    intro idx f _ _ _ _ _ _ hf1
    cases f with
    | zero => omega
    | succ f' => rfl
  | cons c rest ih =>
    intro idx f hwf hnl hcl hdl hsz hfuel hf1
    simp only [wfBoxL, Bool.and_eq_true] at hwf
    obtain ⟨hwc, hwr⟩ := hwf
    rw [noLine_cons, Bool.and_eq_true] at hnl
    obtain ⟨hnc', hnr⟩ := hnl
    have hnc : isLineBox c = false := by
      rw [Bool.not_eq_true'] at hnc'; exact hnc'
    simp only [inlineCleanL, Bool.and_eq_true] at hcl
    obtain ⟨hcc, hcr⟩ := hcl
    simp only [splitDoneL, Bool.and_eq_true] at hdl
    obtain ⟨hdc, hdr⟩ := hdl
    have hbl : isBlockLevel c = false := blockLevel_not_clean hcc
    have hfc := hfuel c (List.mem_cons_self c rest)
    have h16 := pow16_ge_16 c
    simp only [List.length_cons] at hfc
    cases f with
    | zero => omega
    | succ f' =>
    have hf'1 : 1 ≤ f' := by omega
    have hrec : innerLoopF f' none rest (idx + 1) =
        .ok (rest, false, none, none) := by
      refine ih (idx + 1) f' hwr hnr hcr hdr
        (fun x hm => hsz x (List.mem_cons_of_mem c hm)) ?_ hf'1
      intro x hm
      have := hfuel x (List.mem_cons_of_mem c hm)
      simp only [List.length_cons] at this
      omega
    by_cases hil : isInlineBox c = true
    · have hnlc : noLine (children c) = true := by
        rw [wfBox_eq, hil, Bool.true_or, if_pos rfl, Bool.and_eq_true] at hwc
        exact hwc.1
      have hclc : inlineCleanL (children c) = true :=
        inline_clean_children hil hcc
      have hdlc : splitDoneL (children c) = true :=
        inline_done_children hil hdc
      have hstep : innerF f' c none = .ok (c, none, none) :=
        IHinner c (hsz c (List.mem_cons_self c rest)) hwc hnlc hclc hdlc f'
          (by omega)
      simp only [innerLoopF, hbl, Bool.false_eq_true, if_false, hil, if_true,
        hstep, hrec, beqBox_refl, Bool.not_true, Bool.false_or]
    · rw [Bool.not_eq_true] at hil
      by_cases hp : isParentBox c = true
      · have hstep : block_in_inlineF f' c = .ok c :=
          IHbii c (hsz c (List.mem_cons_self c rest)) hwc hdc hnc f' (by omega)
        simp only [innerLoopF, hbl, Bool.false_eq_true, if_false, hil, hp,
          if_true, hstep, hrec, beqBox_refl, Bool.not_true, Bool.false_or]
      · rw [Bool.not_eq_true] at hp
        simp only [innerLoopF, hbl, Bool.false_eq_true, if_false, hil, hp,
          hrec, beqBox_refl, Bool.not_true, Bool.false_or]

/-- Identity of the child loop of `block_in_inline` on well-formed, fully
split children. -/
theorem biiKidsID (n : Nat)
    (IHbii : ∀ c : Box, sizeB c ≤ n → BiiIDP c)
    (IHinner : ∀ c : Box, sizeB c ≤ n → InnerIDP c) :
    ∀ (cs : List Box) (ncount f : Nat),
      wfBoxL cs = true → splitDoneL cs = true →
      (∀ c ∈ cs, isLineBox c = true → cs = [c] ∧ ncount = 1) →
      (∀ c ∈ cs, sizeB c ≤ n) →
      (∀ c ∈ cs, sizeB c + 16 ^ sizeB c + cs.length ≤ f) → 1 ≤ f →
      biiKidsF f ncount cs = .ok (cs, false) := by
  intro cs
  induction cs with
  | nil =>
    intro ncount f _ _ _ _ _ hf1
    cases f with
    | zero => omega
    | succ f' => rfl
  | cons child rest ih =>
    intro ncount f hwf hdl hline hsz hfuel hf1
    simp only [wfBoxL, Bool.and_eq_true] at hwf
    obtain ⟨hwc, hwr⟩ := hwf
    simp only [splitDoneL, Bool.and_eq_true] at hdl
    obtain ⟨hdc, hdr⟩ := hdl
    have hfc := hfuel child (List.mem_cons_self child rest)
    have h16 := pow16_ge_16 child
    have hszc := sizeB_pos child
    simp only [List.length_cons] at hfc
    cases f with
    | zero => omega
    | succ f' =>
    have hf'1 : 1 ≤ f' := by omega
    by_cases hl : isLineBox child = true
    · obtain ⟨hcseq, hnc1⟩ := hline child (List.mem_cons_self child rest) hl
      have hrest_nil : rest = [] := (List.cons.inj hcseq).2
      subst hrest_nil
      subst hnc1
      have hnlc : noLine (children child) = true := by
        rw [wfBox_eq, hl, Bool.or_true, if_pos rfl, Bool.and_eq_true] at hwc
        exact hwc.1
      have hclc : inlineCleanL (children child) = true :=
        (line_clean_children hl hdc).1
      have hdlc : splitDoneL (children child) = true :=
        (line_clean_children hl hdc).2
      cases f' with
      | zero => omega
      | succ f'' =>
      have hinner : innerF f'' child none = .ok (child, none, none) :=
        IHinner child (hsz child (List.mem_cons_self child [])) hwc hnlc hclc
          hdlc f'' (by omega)
      have hsplit : splitLoopF (f'' + 1) child none = .ok ([], child) := by
        simp only [splitLoopF, hinner]
      simp only [biiKidsF, hl, if_true, ne_eq, not_true_eq_false,
        Bool.false_eq_true, if_false, hsplit, List.isEmpty_nil,
        anonInterleave, List.nil_append, beqBox_refl, Bool.not_true,
        Bool.or_false]
    · rw [Bool.not_eq_true] at hl
      have hrec : biiKidsF f' ncount rest = .ok (rest, false) := by
        refine ih ncount f' hwr hdr ?_
          (fun x hm => hsz x (List.mem_cons_of_mem child hm)) ?_ hf'1
        · intro x hm hlx
          obtain ⟨hcs, _⟩ := hline x (List.mem_cons_of_mem child hm) hlx
          have : rest = [] := (List.cons.inj hcs).2
          rw [this] at hm
          exact absurd hm (List.not_mem_nil x)
        · intro x hm
          have := hfuel x (List.mem_cons_of_mem child hm)
          simp only [List.length_cons] at this
          omega
      have hbii : block_in_inlineF f' child = .ok child :=
        IHbii child (hsz child (List.mem_cons_self child rest)) hwc hdc hl f'
          (by omega)
      simp only [biiKidsF, hl, Bool.false_eq_true, if_false, hbii, hrec,
        List.nil_append, beqBox_refl, Bool.not_true, Bool.false_or]

/-- Identity of `_inner_block_in_inline` without a cursor on a clean,
fully split box, one size level up. -/
theorem innerIDA (n : Nat)
    (IHbii : ∀ c : Box, sizeB c ≤ n → BiiIDP c)
    (IHinner : ∀ c : Box, sizeB c ≤ n → InnerIDP c) :
    ∀ c : Box, sizeB c ≤ n + 1 → InnerIDP c := by
  intro c hsz hwf hnlc hclc hdlc f hf
  have h16 := pow16_ge_16 c
  cases f with
  | zero => omega
  | succ f' =>
  have hlen := children_length_lt c
  have hrec : innerLoopF f' none (children c) 0 =
      .ok (children c, false, none, none) := by
    refine innerLoopID n IHbii IHinner (children c) 0 f' (wf_children hwf)
      hnlc hclc hdlc (fun x hm => by have := sizeB_child_lt hm; omega)
      ?_ (by omega)
    intro x hm
    have hx := sizeB_child_lt hm
    have := @arith_inner_child (sizeB c) (sizeB x)
      ((children c).length) hx hlen
    omega
  simp only [innerF, List.drop_zero, hrec, Bool.false_or, ne_eq,
    not_true_eq_false]
  simp

/-- Identity of `block_in_inline` on a well-formed, fully split non-line
box, one size level up. -/
theorem biiIDA (n : Nat)
    (IHbii : ∀ c : Box, sizeB c ≤ n → BiiIDP c)
    (IHinner : ∀ c : Box, sizeB c ≤ n → InnerIDP c) :
    ∀ b : Box, sizeB b ≤ n + 1 → BiiIDP b := by
  intro b hsz hwf hdb hnl f hf
  have h16 := pow16_ge_16 b
  cases f with
  | zero => omega
  | succ f' =>
  by_cases hp : isParentBox b = true
  · have hlen := children_length_lt b
    have hdlc : splitDoneL (children b) = true := by
      rw [splitDone_eq, Bool.and_eq_true] at hdb
      exact hdb.2
    have hrec : biiKidsF f' (children b).length (children b) =
        .ok (children b, false) := by
      refine biiKidsID n IHbii IHinner (children b) (children b).length f'
        (wf_children hwf) hdlc ?_
        (fun x hm => by have := sizeB_child_lt hm; omega) ?_ (by omega)
      · intro x hm hlx
        obtain ⟨hcs, _⟩ := wf_singleton_line hwf hm hlx
        exact ⟨hcs, by rw [hcs]; rfl⟩
      · intro x hm
        have hx := sizeB_child_lt hm
        have := @arith_bii_child (sizeB b) (sizeB x)
          ((children b).length) hx hlen
        omega
    simp only [block_in_inlineF, hrec, Bool.false_eq_true, if_false]
    simp [hp]
  · rw [Bool.not_eq_true] at hp
    simp [block_in_inlineF, hp]

/-- The two identity properties, packaged by size. -/
theorem biiPackID : ∀ n : Nat,
    (∀ c : Box, sizeB c ≤ n → InnerIDP c) ∧
    (∀ b : Box, sizeB b ≤ n → BiiIDP b) := by
  intro n
  induction n with
  | zero =>
    refine ⟨?_, ?_⟩ <;>
      exact fun c hsz => absurd hsz (by have := sizeB_pos c; omega)
  | succ n ih =>
    obtain ⟨ihI, ihB⟩ := ih
    exact ⟨innerIDA n ihB ihI, biiIDA n ihB ihI⟩

/-- Example input for the C2 witness: a block whose single line holds an
inline box and a nested block, satisfying the pre-splitter invariant. -/
def exC2 : Box :=
  .BlockBox [.LineBox [.InlineBox [tN "x"], .BlockBox [tN "y"] none]] none

/-- C2: on any tree satisfying the spec's pre-splitter invariant (§3: every
`LineBox` is the only child of a block container; the root is not a line),
`block_in_inline` succeeds; afterwards no `LineBox` at any nesting depth
contains a block-level box reachable through `InlineBox` nesting
(`splitDoneB`); a second application returns the structurally identical
tree; and on an already fully split tree the very same box comes back (the
identity fast path — Python's object identity is structural identity in
this embedding). -/
theorem claim_C2 (b : Box) (hwf : wfBoxB b = true)
    (hnl : isLineBox b = false) :
    ∃ b2, block_in_inline b = .ok b2 ∧ splitDoneB b2 = true ∧
      block_in_inline b2 = .ok b2 ∧ (splitDoneB b = true → b2 = b) := by
  obtain ⟨_, _, ihB⟩ := biiPack (sizeB b)
  obtain ⟨r, heq, hwr, hdr, hctr⟩ := ihB b le_rfl hwf hnl (biiFuel b) le_rfl
  refine ⟨r, heq, hdr, ?_, ?_⟩
  · obtain ⟨_, ihB2⟩ := biiPackID (sizeB r)
    have hr_nl : isLineBox r = false := by
      rw [isLineBox_of_ctorIdx hctr]; exact hnl
    exact ihB2 r le_rfl hwr hdr hr_nl (biiFuel r) le_rfl
  · intro hdb
    obtain ⟨_, ihB2⟩ := biiPackID (sizeB b)
    have hid : block_in_inlineF (biiFuel b) b = .ok b :=
      ihB2 b le_rfl hwf hdb hnl (biiFuel b) le_rfl
    have h3 : @Except.ok String Box r = Except.ok b := heq.symm.trans hid
    exact Except.ok.inj h3

/-- C2 witness: the concrete invariant-respecting tree `exC2` (a line with
an inline and a nested block) satisfies the hypotheses, and the claim
applies to it. -/
theorem claim_C2_witness :
    wfBoxB exC2 = true ∧ isLineBox exC2 = false ∧
    ∃ b2, block_in_inline exC2 = .ok b2 ∧ splitDoneB b2 = true ∧
      block_in_inline b2 = .ok b2 ∧ (splitDoneB exC2 = true → b2 = exC2) :=
  ⟨by decide, by decide, claim_C2 exC2 (by decide) (by decide)⟩

end Weasy
